import Mathlib

/-!
Verification of the tool-call execution pipeline of the JARVIS assistant
(`modules/utils.py`, class `ToolExecutionPipeline`).

The Python code is shallowly embedded: the subset of the Python AST that the
pipeline inspects is an inductive type, `ast.walk` is reproduced as the same
breadth-first traversal CPython implements (a FIFO queue extended with each
popped node's children, children in field order), and the stateful pieces
(validation cache, parse cache, execution log, wall clock, conversation,
model-response stream) are threaded explicitly through pure functions.

Modelling conventions, used throughout:
* `ast.parse` itself is not reimplemented; functions take a
  `parse : String → ParseResult` argument standing for Python's parser, and
  concrete instances supply concrete parse tables.  The cache keys are the
  candidate strings, exactly as in the source.
* Error strings follow the source messages; quote characters around
  interpolated names are written with the escape `\x27`.
* `time.time()` is modelled as popping the next timestamp (a `Nat`) from a
  clock stream carried in the pipeline state; `repr`/float formatting in
  chat messages is modelled by simple renderers.
-/

namespace Jarvis

/-- Literal constants of Python source (`ast.Constant`). -/
inductive PyConst where
  | int (n : Int)
  | str (s : String)
  | bool (b : Bool)
  | none
deriving Repr, DecidableEq

/-- Values produced by `ast.literal_eval` or returned by tools. -/
inductive Val where
  | int (n : Int)
  | str (s : String)
  | bool (b : Bool)
  | none
  | list (vs : List Val)
deriving Repr

/-- The value of a constant node. -/
def PyConst.toVal : PyConst → Val
  | .int n => .int n
  | .str s => .str s
  | .bool b => .bool b
  | .none => .none

mutual
/-- Python expressions, restricted to the shapes the pipeline distinguishes:
simple names, constants, attribute access, calls (with positional arguments
and keywords), and list displays (a representative literal container). -/
inductive PyExpr where
  | name (id : String)
  | const (c : PyConst)
  | attr (base : PyExpr) (attrName : String)
  | call (func : PyExpr) (args : List PyExpr) (keywords : List PyKeyword)
  | listE (elts : List PyExpr)
deriving Repr

/-- A keyword argument node (`ast.keyword`); `arg = none` is `**` unpacking. -/
inductive PyKeyword where
  | mk (arg : Option String) (value : PyExpr)
deriving Repr
end

def PyKeyword.arg : PyKeyword → Option String
  | .mk a _ => a

def PyKeyword.value : PyKeyword → PyExpr
  | .mk _ v => v

/-- Python statements: expression statements and (as a representative
non-expression statement) single-target assignments. -/
inductive PyStmt where
  | exprStmt (value : PyExpr)
  | assign (target : String) (value : PyExpr)
deriving Repr

/-- Result of `ast.parse(code, mode="exec")`: a syntax error or a module body. -/
inductive ParseResult where
  | syntaxError (msg : String)
  | ok (body : List PyStmt)
deriving Repr

/-- A node of the walk queue: `ast.walk` traverses statements, expressions and
keyword nodes alike. -/
inductive Node where
  | stm (s : PyStmt)
  | exp (e : PyExpr)
  | kw (k : PyKeyword)
deriving Repr

/-- Child nodes in CPython field order (`iter_child_nodes`). -/
def Node.children : Node → List Node
  | .stm (.exprStmt e) => [.exp e]
  | .stm (.assign t v) => [.exp (.name t), .exp v]
  | .exp (.name _) => []
  | .exp (.const _) => []
  | .exp (.attr b _) => [.exp b]
  | .exp (.call f args kws) => .exp f :: (args.map .exp ++ kws.map .kw)
  | .exp (.listE es) => es.map .exp
  | .kw k => [.exp k.value]

mutual
/-- Node count of an expression subtree (keyword wrappers included), the
termination measure of the breadth-first walk. -/
def PyExpr.size : PyExpr → Nat
  | .name _ => 1
  | .const _ => 1
  | .attr b _ => 1 + b.size
  | .call f args kws => 1 + f.size + sizeList args + sizeKwList kws
  | .listE es => 1 + sizeList es

def sizeList : List PyExpr → Nat
  | [] => 0
  | e :: es => e.size + sizeList es

def sizeKwList : List PyKeyword → Nat
  | [] => 0
  | .mk _ v :: ks => 1 + v.size + sizeKwList ks
end

def PyStmt.size : PyStmt → Nat
  | .exprStmt e => 1 + e.size
  | .assign _ v => 2 + v.size

def Node.size : Node → Nat
  | .stm s => s.size
  | .exp e => e.size
  | .kw k => 1 + k.value.size

/-- Total size of a walk queue. -/
def queueSize (q : List Node) : Nat := (q.map Node.size).sum

theorem sizeList_eq_sum (es : List PyExpr) :
    sizeList es = (es.map fun e => e.size).sum := by
  induction es with
  | nil => rfl
  | cons e es ih => simp [sizeList, ih]

theorem sizeKwList_eq_sum (ks : List PyKeyword) :
    sizeKwList ks = (ks.map (fun k => 1 + k.value.size)).sum := by
  induction ks with
  | nil => rfl
  | cons k ks ih => cases k; simp [sizeKwList, ih, PyKeyword.value]

/-- A node is exactly one bigger than the sum of its children: the walk queue
shrinks by one at every step. -/
theorem Node.size_children (n : Node) :
    n.size = 1 + queueSize n.children := by
  cases n with
  | stm s =>
    cases s <;>
      simp [Node.size, Node.children, PyStmt.size, queueSize, PyExpr.size] <;>
      omega
  | exp e =>
    cases e <;>
      simp [Node.size, Node.children, PyExpr.size, queueSize, sizeList_eq_sum,
        sizeKwList_eq_sum, List.map_map, Function.comp_def] <;>
      omega
  | kw k => cases k; simp [Node.size, Node.children, queueSize, PyKeyword.value]

theorem queueSize_append (q r : List Node) :
    queueSize (q ++ r) = queueSize q + queueSize r := by
  simp [queueSize]

theorem queueSize_cons (n : Node) (q : List Node) :
    queueSize (n :: q) = n.size + queueSize q := by
  simp [queueSize]

/-- Validation reason for a simple-name call outside the allow-list. -/
def notAllowedMsg (id : String) : String :=
  "Function \x27" ++ id ++ "\x27 is not an allowed tool"

/-- Validation reason for a call whose callee is not a simple name. -/
def onlyDirectMsg : String :=
  "Only direct function calls (simple names) are allowed in tool_code blocks."

/-- What `validate_tool_call`'s loop body does at one walked node: `some`
verdict stops the walk, `none` keeps scanning. -/
def validateStep (allowed : List String) (n : Node) : Option (Bool × String) :=
  match n with
  | .exp (.call (.name id) _ _) =>
    if id ∈ allowed then none else some (false, notAllowedMsg id)
  | .exp (.call _ _ _) => some (false, onlyDirectMsg)
  | _ => none

/-- The scanning loop of `validate_tool_call`: `for node in ast.walk(tree)`
in breadth-first order, returning at the first `ast.Call` whose callee is a
simple name outside the allow-list, or whose callee is not a simple name;
all other nodes keep scanning (their children join the queue). -/
def validateNodes (allowed : List String) (q : List Node) : Bool × String :=
  match q with
  | [] => (true, "Valid")
  | n :: rest =>
    match validateStep allowed n with
    | some res => res
    | none => validateNodes allowed (rest ++ n.children)
termination_by queueSize q
decreasing_by
  simp only [queueSize_append, queueSize_cons]
  have := Node.size_children n
  omega

/-- The same breadth-first scan with an explicit step budget (structurally
recursive, so that concrete runs evaluate inside the kernel).  One queue node
is consumed per step, so a budget of `queueSize q` is exact; the
budget-exhausted arm is unreachable on such budgets
(`validateNodesF_eq` below). -/
def validateNodesF (allowed : List String) : Nat → List Node → Bool × String
  | _, [] => (true, "Valid")
  | 0, _ :: _ => (true, "Valid")
  | fuel + 1, n :: rest =>
    match validateStep allowed n with
    | some res => res
    | none => validateNodesF allowed fuel (rest ++ n.children)

/-- The body of `validate_tool_call` after a successful `ast.parse`: walk the
module tree and inspect every call expression. -/
def validate_module (allowed : List String) (body : List PyStmt) : Bool × String :=
  validateNodesF allowed (queueSize (body.map Node.stm)) (body.map Node.stm)

/-- One execution record, the dict built by `execute_tool_call` (and, for
validation failures, by `process_tool_cycle`). -/
structure Outcome where
  success : Bool
  result : Option Val
  code : String
  execution_time : Nat
  error : Option String
deriving Repr

/-- A parsed call: `(function name, positional args, keyword args)`. -/
abbrev Parsed := String × List Val × List (String × Val)

/-- The mutable per-instance state of `ToolExecutionPipeline`: the two caches
(dicts modelled as association lists with the newest binding in front), the
append-only execution log, and the stream of `time.time()` readings. -/
structure PipeState where
  validation_cache : List (String × (Bool × String))
  parse_cache : List (String × Parsed)
  tool_execution_log : List Outcome
  clock : List Nat
deriving Repr

/-- The verdict `validate_tool_call` computes on a cache miss: parse the
candidate and scan the tree. -/
def validate_fresh (allowed : List String) (parse : String → ParseResult)
    (code : String) : Bool × String :=
  match parse code with
  | .syntaxError e => (false, "Invalid code syntax: " ++ e)
  | .ok body => validate_module allowed body

/-- `ToolExecutionPipeline.validate_tool_call`: answer from the cache when the
exact text was seen before, otherwise compute the verdict and cache it.  Every
return path stores its verdict. -/
def validate_tool_call (allowed : List String) (parse : String → ParseResult)
    (st : PipeState) (code : String) : (Bool × String) × PipeState :=
  match st.validation_cache.lookup code with
  | some res => (res, st)
  | none =>
    let res := validate_fresh allowed parse code
    (res, { st with validation_cache := (code, res) :: st.validation_cache })

mutual
/-- `ast.literal_eval` on an argument node: constants and literal containers
evaluate, anything containing a name, attribute or call fails (`none`). -/
def litEval : PyExpr → Option Val
  | .const c => some c.toVal
  | .listE es =>
    match litEvalList es with
    | some vs => some (.list vs)
    | none => none
  | .name _ => none
  | .attr _ _ => none
  | .call _ _ _ => none

def litEvalList : List PyExpr → Option (List Val)
  | [] => some []
  | e :: es =>
    match litEval e, litEvalList es with
    | some v, some vs => some (v :: vs)
    | _, _ => none
end

/-- Rendering of a constant in `ast.dump` style. -/
def PyConst.dump : PyConst → String
  | .int n => toString n
  | .str s => "\x27" ++ s ++ "\x27"
  | .bool b => if b then "True" else "False"
  | .none => "None"

mutual
/-- `ast.dump` of an expression, used by the parser's error message for a
non-literal positional argument. -/
def PyExpr.dump : PyExpr → String
  | .name id => "Name(id=\x27" ++ id ++ "\x27)"
  | .const c => "Constant(value=" ++ c.dump ++ ")"
  | .attr b a => "Attribute(value=" ++ b.dump ++ ", attr=\x27" ++ a ++ "\x27)"
  | .call f args kws =>
    "Call(func=" ++ f.dump ++ ", args=[" ++ dumpList args ++
      "], keywords=[" ++ dumpKwList kws ++ "])"
  | .listE es => "List(elts=[" ++ dumpList es ++ "])"

def dumpList : List PyExpr → String
  | [] => ""
  | [e] => e.dump
  | e :: es => e.dump ++ ", " ++ dumpList es

def dumpKwList : List PyKeyword → String
  | [] => ""
  | [.mk a v] => "keyword(arg=" ++ (match a with | some s => "\x27" ++ s ++ "\x27" | none => "None") ++ ", value=" ++ v.dump ++ ")"
  | .mk a v :: ks =>
    "keyword(arg=" ++ (match a with | some s => "\x27" ++ s ++ "\x27" | none => "None") ++ ", value=" ++ v.dump ++ "), " ++ dumpKwList ks
end

/-- Parser error messages (`_parse_tool_call`).  The source interpolates the
underlying `literal_eval` exception text after the dump; that trailing text is
omitted here. -/
def syntaxParseMsg (e : String) : String := "SyntaxError during parse: " ++ e

def singleExprMsg : String :=
  "Tool block must contain exactly one expression (one function call)."

def mustBeCallMsg : String := "Tool block must be a function call."

def parseOnlyDirectMsg : String :=
  "Only direct function calls (no attribute access) are allowed."

def notInAllowedToolsMsg (f : String) : String :=
  "Tool \x27" ++ f ++ "\x27 is not in allowed_tools."

def nonLitPosMsg (a : PyExpr) : String :=
  "Unsupported non-literal positional argument: " ++ a.dump

def unpackMsg : String := "**kwargs (unpacking) is not supported in tool calls."

def nonLitKwMsg (k : String) : String :=
  "Unsupported non-literal keyword argument \x27" ++ k ++ "\x27"

/-- The positional-argument loop of `_parse_tool_call`: evaluate in order,
raising at the first argument `literal_eval` rejects. -/
def evalArgs : List PyExpr → Except String (List Val)
  | [] => .ok []
  | a :: rest =>
    match litEval a with
    | some v =>
      match evalArgs rest with
      | .ok vs => .ok (v :: vs)
      | .error e => .error e
    | none => .error (nonLitPosMsg a)

/-- The keyword loop of `_parse_tool_call`: reject `**` unpacking, evaluate
values in order, raising at the first non-literal value. -/
def evalKwargs : List PyKeyword → Except String (List (String × Val))
  | [] => .ok []
  | .mk none _ :: _ => .error unpackMsg
  | .mk (some k) v :: rest =>
    match litEval v with
    | some w =>
      match evalKwargs rest with
      | .ok ws => .ok ((k, w) :: ws)
      | .error e => .error e
    | none => .error (nonLitKwMsg k)

/-- `_parse_tool_call` on a cache miss: parse, require exactly one expression
statement whose value is a call to an allow-listed simple name, and evaluate
every argument as a literal. -/
def parse_tool_call_result (allowed : List String) (parse : String → ParseResult)
    (code : String) : Except String Parsed :=
  match parse code with
  | .syntaxError e => .error (syntaxParseMsg e)
  | .ok body =>
    match body with
    | [.exprStmt v] =>
      match v with
      | .call f args kws =>
        match f with
        | .name fname =>
          if fname ∈ allowed then
            match evalArgs args with
            | .error e => .error e
            | .ok as =>
              match evalKwargs kws with
              | .error e => .error e
              | .ok ks => .ok (fname, as, ks)
          else .error (notInAllowedToolsMsg fname)
        | _ => .error parseOnlyDirectMsg
      | _ => .error mustBeCallMsg
    | _ => .error singleExprMsg

/-- `ToolExecutionPipeline._parse_tool_call`: cached on success only (the
source raises before the cache assignment on every failure path). -/
def parse_tool_call (allowed : List String) (parse : String → ParseResult)
    (st : PipeState) (code : String) : Except String Parsed × PipeState :=
  match st.parse_cache.lookup code with
  | some p => (.ok p, st)
  | none =>
    match parse_tool_call_result allowed parse code with
    | .ok p => (.ok p, { st with parse_cache := (code, p) :: st.parse_cache })
    | .error e => (.error e, st)

/-- The tool registry of `ToolExecutionPipeline.__init__` (`self.allowed_tools`),
transcribed name for name. -/
def allowed_tools : List String :=
  ["get_weather", "get_news", "get_wikipedia_summary",
   "get_current_city", "get_current_date", "get_current_time",
   "copy_file", "move_file", "delete_file", "search_file",
   "save_to_file", "load_from_file", "create_directory", "list_directory",
   "get_system_info", "system_cli", "is_connected",
   "lock_screen", "volume_up", "volume_down", "mute_volume",
   "unmute_volume", "play_pause_media", "next_track",
   "previous_track", "brightness_up", "brightness_down",
   "shutdown", "restart", "log_off", "take_screenshot", "Click",
   "capture_camera_image", "get_cpu_usage", "get_memory_usage",
   "get_battery_status", "get_network_info",
   "send_email", "send_whatsapp_message",
   "add_reminder", "check_reminders", "add_task", "remove_task", "show_tasks",
   "search_web", "open_website",
   "analyze_image", "generate_image",
   "open_application", "close_application",
   "handle_gesture_control",
   "secure_eval",
   "type_text", "press_key", "copy_text_to_clipboard", "paste_text"]

/-- A tool callable: invoked with positional and keyword arguments, it either
returns a value or raises (`Except.error` with the exception text). -/
abbrev ToolFn := List Val → List (String × Val) → Except String Val

/-- The runtime lookup `self._prebound_scope.get(name) or globals().get(name)`.
The prebound scope is the restriction of `globals()` to the allowed names, so
the two-step lookup collapses to one map from names to callables (`none` for
a name that is absent or not callable). -/
abbrev Registry := String → Option ToolFn

/-- `time.time()`: pop the next reading from the clock stream. -/
def readClock (st : PipeState) : Nat × PipeState :=
  match st.clock with
  | [] => (0, st)
  | t :: rest => (t, { st with clock := rest })

/-- The message wrapped around any exception caught in `execute_tool_call`. -/
def execErrorMsg (code e : String) : String :=
  "Error executing tool \x27" ++ code ++ "\x27: " ++ e

/-- The `NameError` text for a tool missing from the runtime scope. -/
def notImplementedMsg (fname : String) : String :=
  "Tool \x27" ++ fname ++ "\x27 is not implemented in the runtime environment."

/-- `ToolExecutionPipeline.execute_tool_call`: read the clock, parse the call
(through the parse cache), look up the callable, invoke it, and catch every
exception as a failed outcome.  Both branches read the clock a second time,
record `execution_time` around the call, and append the outcome to
`tool_execution_log`.  The function is total: no error escapes to the caller. -/
def execute_tool_call (allowed : List String) (parse : String → ParseResult)
    (registry : Registry) (st : PipeState) (code : String) :
    Outcome × PipeState :=
  let (t0, st) := readClock st
  match parse_tool_call allowed parse st code with
  | (.error e, st) =>
    let (t1, st) := readClock st
    let o : Outcome :=
      { success := false, result := none, code := code,
        execution_time := t1 - t0, error := some (execErrorMsg code e) }
    (o, { st with tool_execution_log := st.tool_execution_log ++ [o] })
  | (.ok (fname, args, kwargs), st) =>
    match registry fname with
    | none =>
      let (t1, st) := readClock st
      let o : Outcome :=
        { success := false, result := none, code := code,
          execution_time := t1 - t0,
          error := some (execErrorMsg code (notImplementedMsg fname)) }
      (o, { st with tool_execution_log := st.tool_execution_log ++ [o] })
    | some f =>
      match f args kwargs with
      | .ok v =>
        let (t1, st) := readClock st
        let o : Outcome :=
          { success := true, result := some v, code := code,
            execution_time := t1 - t0, error := none }
        (o, { st with tool_execution_log := st.tool_execution_log ++ [o] })
      | .error e =>
        let (t1, st) := readClock st
        let o : Outcome :=
          { success := false, result := none, code := code,
            execution_time := t1 - t0, error := some (execErrorMsg code e) }
        (o, { st with tool_execution_log := st.tool_execution_log ++ [o] })

/-- A piece of a model response: plain text, or one well-formed
` ```tool_code ... ``` ` fenced block with the given body.  A response string
is modelled as the concatenation of its segments. -/
inductive Seg where
  | text (s : String)
  | block (code : String)
deriving Repr

/-- The raw text of a segment. -/
def Seg.render : Seg → String
  | .text s => s
  | .block c => "```tool_code\n" ++ c ++ "\n```"

/-- The raw text of a response. -/
def renderResponse (r : List Seg) : String :=
  String.join (r.map Seg.render)

/-- Python `str.strip()` (as the regex `\\s*(.*?)\\s*` also trims): drop
whitespace from both ends.  Defined over the character list so that it
evaluates by reduction. -/
def pyStrip (s : String) : String :=
  String.mk (((s.data.dropWhile Char.isWhitespace).reverse.dropWhile
    Char.isWhitespace).reverse)

/-- `extract_tool_calls`: the compiled regex finds every fenced block body
(whitespace around the body absorbed), and empty or whitespace-only bodies are
dropped. -/
def extract_tool_calls (r : List Seg) : List String :=
  (r.filterMap fun s =>
    match s with
    | .block c => some (pyStrip c)
    | .text _ => none).filter (fun c => !c.isEmpty)

/-- The validation-failure record built inline by `process_tool_cycle`. -/
def validationFailureOutcome (code msg : String) : Outcome :=
  { success := false, result := none, code := code,
    execution_time := 0, error := some ("Validation failed: " ++ msg) }

/-- The per-candidate loop of `process_tool_cycle`: validate each candidate,
execute the valid ones, collect one outcome per candidate in order, and OR
together the error flags. -/
def runCandidates (allowed : List String) (parse : String → ParseResult)
    (registry : Registry) (st : PipeState) :
    List String → (List Outcome × Bool) × PipeState
  | [] => (([], false), st)
  | c :: rest =>
    let ((isValid, msg), st) := validate_tool_call allowed parse st c
    let (o, err, st) :=
      if isValid then
        let (o, st) := execute_tool_call allowed parse registry st c
        (o, !o.success, st)
      else
        (validationFailureOutcome c msg, true, st)
    let ((os, he), st') := runCandidates allowed parse registry st rest
    ((o :: os, err || he), st')

/-- `ToolExecutionPipeline.process_tool_cycle`: extract candidates, return
`([], false)` when there are none, otherwise cap the list at
`max_tools_per_cycle` and run the per-candidate loop. -/
def process_tool_cycle (allowed : List String) (parse : String → ParseResult)
    (registry : Registry) (maxToolsPerCycle : Nat) (st : PipeState)
    (aiResponse : List Seg) : (List Outcome × Bool) × PipeState :=
  let toolCalls := extract_tool_calls aiResponse
  if toolCalls.isEmpty then (([], false), st)
  else runCandidates allowed parse registry st (toolCalls.take maxToolsPerCycle)

/-- One conversation entry (`{"role": ..., "content": ...}`). -/
structure Turn where
  role : String
  content : String
deriving Repr, DecidableEq

/-- State threaded through `handle_query_with_iterative_tools`: the (global)
conversation list, the pipeline state, the stream of model responses standing
for `get_response`, and a counter of model calls made. -/
structure DriverState where
  conv : List Turn
  pipe : PipeState
  oracle : List (List Seg)
  calls : Nat
deriving Repr

/-- `get_response(conversation, online=...)`: consume the next model response
(an exhausted stream yields the empty response). -/
def getResponse (st : DriverState) : List Seg × DriverState :=
  match st.oracle with
  | [] => ([], { st with calls := st.calls + 1 })
  | r :: rest => (r, { st with oracle := rest, calls := st.calls + 1 })

/-- `conversation.append(...)`. -/
def appendTurn (st : DriverState) (t : Turn) : DriverState :=
  { st with conv := st.conv ++ [t] }

mutual
/-- Python `repr` of a result value, used in tool-result messages. -/
def reprVal : Val → String
  | .int n => toString n
  | .str s => "\x27" ++ s ++ "\x27"
  | .bool b => if b then "True" else "False"
  | .none => "None"
  | .list vs => "[" ++ reprValList vs ++ "]"

def reprValList : List Val → String
  | [] => ""
  | [v] => reprVal v
  | v :: vs => reprVal v ++ ", " ++ reprValList vs
end

/-- The synthetic system message appended for one tool outcome (float
formatting of the execution time is modelled as decimal rendering). -/
def toolResultMsg (o : Outcome) : String :=
  if o.success then
    "[TOOL-SUCCESS] " ++ o.code ++ "\nResult: " ++
      (match o.result with | some v => reprVal v | none => "None") ++
      "\nExecution time: " ++ toString o.execution_time ++ "s"
  else
    "[TOOL-ERROR] " ++ o.code ++ "\nError: " ++ o.error.getD "None"

/-- The context-window management of the driver loop: when the turn count
exceeds 20, keep the first turn (the system prompt) plus the 19 most recent
turns; the source writes the result back in place
(`GLOBAL_CONVERSATION_HISTORY[:] = new_hist`). -/
def truncate_conversation (conv : List Turn) : List Turn :=
  if conv.length > 20 then conv.take 1 ++ conv.drop (conv.length - 19)
  else conv

/-- `re.sub(r"```tool_code.*?```", "", final_response, flags=DOTALL).strip()`:
drop every fenced block and trim the remaining text. -/
def strip_tool_blocks (r : List Seg) : String :=
  pyStrip (String.join (r.filterMap fun s =>
    match s with
    | .text t => some t
    | .block _ => none))

/-- Driver strings, verbatim from the source. -/
def recoveryPrompt : String :=
  "The previous request failed to generate a response. Please provide a clear answer based on the available context and tool results."

def troubleMsg : String :=
  "I apologize, but I\x27m having trouble generating a response. Please try rephrasing your question."

def finalAnswerPrompt : String :=
  "Please provide a final answer based on the tool results above."

def disclaimerPrefix : String :=
  "I\x27ve completed the available tool operations. "

def cantCompleteMsg : String :=
  "I apologize, but I couldn\x27t complete the request."

/-- The forced-final path taken when the cycle budget is exhausted: append one
more user turn asking for a concluding answer, make exactly one more model
call, and if that answer is non-empty and still contains tool-call syntax,
strip the fenced blocks and prefix the disclaimer. -/
def forcedFinal (st : DriverState) : String × DriverState :=
  let st := appendTurn st ⟨"user", finalAnswerPrompt⟩
  let (f, st') := getResponse st
  let fr := renderResponse f
  if fr.isEmpty then (fr, st')
  else if (extract_tool_calls f).isEmpty then (fr, st')
  else (disclaimerPrefix ++ strip_tool_blocks f, st')

/-- The tool-result feedback of one cycle: append one system turn per
outcome, then apply the context-window truncation. -/
def cycleAppend (results : List Outcome) (st : DriverState) : DriverState :=
  let st' := results.foldl (fun s o => appendTurn s ⟨"system", toolResultMsg o⟩) st
  { st' with conv := truncate_conversation st'.conv }

/-- The `while tool_cycle_count < self.max_tool_cycles` loop, with
`fuel = max_tool_cycles - tool_cycle_count` remaining iterations.  Per
iteration: get a model response (with one recovery retry on an empty
response), append it as an assistant turn, run one tool cycle; no tool
results means the response is the final answer; otherwise append one system
turn per outcome, truncate the conversation, and either recurse or — when the
budget is now exhausted — take the forced-final path.  `""` stands for the
loop ending with no final response (`final_response or ...` picks the
apology). -/
def runCycles (allowed : List String) (parse : String → ParseResult)
    (registry : Registry) (maxToolsPerCycle : Nat) :
    Nat → DriverState → String × DriverState
  | 0, st => ("", st)
  | fuel + 1, st =>
    let (r0, st1) := getResponse st
    let (r, st2, failed) :=
      if (renderResponse r0).isEmpty then
        let stR := appendTurn st1 ⟨"user", recoveryPrompt⟩
        let (r1, stR) := getResponse stR
        (r1, stR, (renderResponse r1).isEmpty)
      else (r0, st1, false)
    if failed then (troubleMsg, st2)
    else
      let st := appendTurn st2 ⟨"assistant", renderResponse r⟩
      let ((results, _hasErrors), p) :=
        process_tool_cycle allowed parse registry maxToolsPerCycle st.pipe r
      let st := { st with pipe := p }
      if results.isEmpty then (renderResponse r, st)
      else
        let st := cycleAppend results st
        if fuel = 0 then forcedFinal st
        else runCycles allowed parse registry maxToolsPerCycle fuel st

/-- The system-prompt bootstrap at the top of
`handle_query_with_iterative_tools`: ensure the first turn is a system turn
carrying the current prompt (insert, replace the content, or keep it). -/
def ensure_system_turn (sysPrompt : String) : List Turn → List Turn
  | [] => [⟨"system", sysPrompt⟩]
  | t :: rest =>
    if t.role ≠ "system" then ⟨"system", sysPrompt⟩ :: t :: rest
    else if t.content ≠ sysPrompt then ⟨"system", sysPrompt⟩ :: rest
    else t :: rest

/-- `ToolExecutionPipeline.handle_query_with_iterative_tools`.  The cached
system prompt is passed in directly (its 5-minute rebuild timer only affects
the prompt text). -/
def handle_query_with_iterative_tools (allowed : List String)
    (parse : String → ParseResult) (registry : Registry)
    (maxToolCycles maxToolsPerCycle : Nat) (sysPrompt : String)
    (st : DriverState) (query : String) : String × DriverState :=
  if query.isEmpty then ("Please provide a query.", st)
  else
    let st := { st with
      conv := ensure_system_turn sysPrompt st.conv ++ [⟨"user", query⟩] }
    let (res, st) := runCycles allowed parse registry maxToolsPerCycle maxToolCycles st
    ((if res.isEmpty then cantCompleteMsg else res), st)

/-! ## Specification predicates and lemmas -/

/-- A call expression whose callee is not a simple name. -/
def isBadShape : PyExpr → Bool
  | .call (.name _) _ _ => false
  | .call _ _ _ => true
  | _ => false

/-- A call to a simple name that is outside the allow-list. -/
def isDisallowedName (allowed : List String) : PyExpr → Bool
  | .call (.name id) _ _ => decide (id ∉ allowed)
  | _ => false

/-- Any call node at all. -/
def isAnyCall : PyExpr → Bool
  | .call _ _ _ => true
  | _ => false

/-- A call the validator rejects: wrong shape or disallowed name. -/
def offender (allowed : List String) (e : PyExpr) : Bool :=
  isBadShape e || isDisallowedName allowed e

/-- A bare name expression (a variable reference used as an argument). -/
def isNameRef : PyExpr → Bool
  | .name _ => true
  | _ => false

mutual
/-- Does some call node in the subtree satisfy `p`?  (`p` is consulted only
at call nodes.) -/
def anyCall (p : PyExpr → Bool) : PyExpr → Bool
  | .name _ => false
  | .const _ => false
  | .attr b _ => anyCall p b
  | .call f args kws =>
    p (.call f args kws) || anyCall p f || anyCallList p args || anyCallKw p kws
  | .listE es => anyCallList p es

def anyCallList (p : PyExpr → Bool) : List PyExpr → Bool
  | [] => false
  | e :: es => anyCall p e || anyCallList p es

def anyCallKw (p : PyExpr → Bool) : List PyKeyword → Bool
  | [] => false
  | .mk _ v :: ks => anyCall p v || anyCallKw p ks
end

/-- `anyCall` lifted to walk-queue nodes. -/
def Node.anyCallN (p : PyExpr → Bool) : Node → Bool
  | .stm (.exprStmt e) => anyCall p e
  | .stm (.assign _ v) => anyCall p v
  | .exp e => anyCall p e
  | .kw k => anyCall p k.value

/-- Does `p` hold at this node itself (when it is a call expression)? -/
def Node.callHere (p : PyExpr → Bool) : Node → Bool
  | .exp (.call f args kws) => p (.call f args kws)
  | _ => false

/-- Does some call node under some queue entry satisfy `p`? -/
def qAny (p : PyExpr → Bool) (q : List Node) : Bool :=
  q.any (Node.anyCallN p)

/-- Does some call node in the module satisfy `p`? -/
def module_any (p : PyExpr → Bool) (m : List PyStmt) : Bool :=
  qAny p (m.map Node.stm)

theorem anyCallList_eq (p : PyExpr → Bool) (es : List PyExpr) :
    anyCallList p es = es.any (anyCall p) := by
  induction es with
  | nil => rfl
  | cons e es ih => simp [anyCallList, ih]

theorem anyCallKw_eq (p : PyExpr → Bool) (ks : List PyKeyword) :
    anyCallKw p ks = ks.any (fun k => anyCall p k.value) := by
  induction ks with
  | nil => rfl
  | cons k ks ih => cases k; simp [anyCallKw, ih, PyKeyword.value]

theorem any_map_exp (p : PyExpr → Bool) (es : List PyExpr) :
    (es.map Node.exp).any (Node.anyCallN p) = es.any (anyCall p) := by
  induction es with
  | nil => rfl
  | cons e es ih => simp [Node.anyCallN, ih]

theorem any_map_kw (p : PyExpr → Bool) (ks : List PyKeyword) :
    (ks.map Node.kw).any (Node.anyCallN p) = ks.any (fun k => anyCall p k.value) := by
  induction ks with
  | nil => rfl
  | cons k ks ih => simp [Node.anyCallN, ih]

/-- Unfolding a queue node one level: `p` holds somewhere under `n` iff it
holds at `n` itself or somewhere under a child of `n`. -/
theorem Node.anyCallN_eq (p : PyExpr → Bool) (n : Node) :
    n.anyCallN p = (n.callHere p || n.children.any (Node.anyCallN p)) := by
  cases n with
  | stm s =>
    cases s with
    | exprStmt e => simp [Node.anyCallN, Node.callHere, Node.children]
    | assign t v =>
      simp [Node.anyCallN, Node.callHere, Node.children, anyCall]
  | exp e =>
    cases e with
    | name id => simp [Node.anyCallN, Node.callHere, Node.children, anyCall]
    | const c => simp [Node.anyCallN, Node.callHere, Node.children, anyCall]
    | attr b a => simp [Node.anyCallN, Node.callHere, Node.children, anyCall]
    | call f args kws =>
      simp [Node.anyCallN, Node.callHere, Node.children, anyCall,
        anyCallList_eq, anyCallKw_eq, List.any_append, any_map_exp,
        any_map_kw, Bool.or_assoc]
    | listE es =>
      simp [Node.anyCallN, Node.callHere, Node.children, anyCall,
        anyCallList_eq, any_map_exp]
  | kw k =>
    cases k
    simp [Node.anyCallN, Node.callHere, Node.children, PyKeyword.value]

theorem qAny_cons (p : PyExpr → Bool) (n : Node) (q : List Node) :
    qAny p (n :: q) = (n.anyCallN p || qAny p q) := by
  simp [qAny]

theorem qAny_append (p : PyExpr → Bool) (q r : List Node) :
    qAny p (q ++ r) = (qAny p q || qAny p r) := by
  simp [qAny]

/-- Pushing a node's children onto the queue preserves `qAny` when `p` does
not hold at the node itself. -/
theorem qAny_step (p : PyExpr → Bool) (n : Node) (rest : List Node)
    (h : n.callHere p = false) :
    qAny p (n :: rest) = qAny p (rest ++ n.children) := by
  rw [qAny_cons, qAny_append, Node.anyCallN_eq, h]
  simp [qAny, Bool.or_comm]

theorem callHere_or (p r : PyExpr → Bool) (n : Node) :
    n.callHere (fun e => p e || r e) = (n.callHere p || n.callHere r) := by
  cases n with
  | stm s => cases s <;> simp [Node.callHere]
  | kw k => simp [Node.callHere]
  | exp e => cases e <;> simp [Node.callHere]

/-- The validator keeps scanning at a node exactly when the node is not an
offending call. -/
theorem validateStep_none_iff (allowed : List String) (n : Node) :
    validateStep allowed n = none ↔ n.callHere (offender allowed) = false := by
  cases n with
  | stm s => cases s <;> simp [validateStep, Node.callHere]
  | kw k => simp [validateStep, Node.callHere]
  | exp e =>
    cases e with
    | name id => simp [validateStep, Node.callHere]
    | const c => simp [validateStep, Node.callHere]
    | attr b a => simp [validateStep, Node.callHere]
    | listE es => simp [validateStep, Node.callHere]
    | call f args kws =>
      cases f with
      | name id =>
        by_cases h : id ∈ allowed <;>
          simp [validateStep, Node.callHere, offender, isBadShape,
            isDisallowedName, h]
      | const c => simp [validateStep, Node.callHere, offender, isBadShape]
      | attr b a => simp [validateStep, Node.callHere, offender, isBadShape]
      | call g as ks => simp [validateStep, Node.callHere, offender, isBadShape]
      | listE es => simp [validateStep, Node.callHere, offender, isBadShape]

/-- Every early verdict of the scanner is a failure with one of the two
reasons. -/
theorem validateStep_some (allowed : List String) (n : Node)
    (res : Bool × String) (h : validateStep allowed n = some res) :
    (∃ id, id ∉ allowed ∧ res = (false, notAllowedMsg id)) ∨
      res = (false, onlyDirectMsg) := by
  cases n with
  | stm s => cases s <;> simp [validateStep] at h
  | kw k => simp [validateStep] at h
  | exp e =>
    cases e with
    | name id => simp [validateStep] at h
    | const c => simp [validateStep] at h
    | attr b a => simp [validateStep] at h
    | listE es => simp [validateStep] at h
    | call f args kws =>
      cases f with
      | name id =>
        by_cases hid : id ∈ allowed
        · simp [validateStep, hid] at h
        · simp [validateStep, hid] at h
          exact Or.inl ⟨id, hid, h.symm⟩
      | const c => simp [validateStep] at h; exact Or.inr h.symm
      | attr b a => simp [validateStep] at h; exact Or.inr h.symm
      | call g as ks => simp [validateStep] at h; exact Or.inr h.symm
      | listE es => simp [validateStep] at h; exact Or.inr h.symm

/-- A call of bad shape stops the scanner with the only-direct-calls reason. -/
theorem validateStep_badShape (allowed : List String) (n : Node)
    (h : n.callHere isBadShape = true) :
    validateStep allowed n = some (false, onlyDirectMsg) := by
  cases n with
  | stm s => cases s <;> simp [Node.callHere] at h
  | kw k => simp [Node.callHere] at h
  | exp e =>
    cases e with
    | name id => simp [Node.callHere] at h
    | const c => simp [Node.callHere] at h
    | attr b a => simp [Node.callHere] at h
    | listE es => simp [Node.callHere] at h
    | call f args kws =>
      cases f with
      | name id => simp [Node.callHere, isBadShape] at h
      | const c => simp [validateStep]
      | attr b a => simp [validateStep]
      | call g as ks => simp [validateStep]
      | listE es => simp [validateStep]

/-- The walk declares a queue valid exactly when no offending call occurs
anywhere under it. -/
theorem validateNodes_true_iff (allowed : List String) (q : List Node) :
    ((validateNodes allowed q).1 = true) ↔ qAny (offender allowed) q = false := by
  induction q using validateNodes.induct allowed with
  | case1 => simp [validateNodes, qAny]
  | case2 n rest res hstep =>
    rw [validateNodes]
    simp only [hstep]
    have hres := validateStep_some allowed n res hstep
    have hc : n.callHere (offender allowed) = true := by
      rcases h : n.callHere (offender allowed) with _ | _
      · exact absurd ((validateStep_none_iff allowed n).mpr h) (by simp [hstep])
      · rfl
    have hq : qAny (offender allowed) (n :: rest) = true := by
      rw [qAny_cons, Node.anyCallN_eq, hc]
      simp
    rw [hq]
    rcases hres with ⟨id, _, rfl⟩ | rfl <;> simp
  | case3 n rest hstep ih =>
    rw [validateNodes]
    simp only [hstep]
    rw [qAny_step _ _ _ ((validateStep_none_iff allowed n).mp hstep)]
    exact ih

/-- A verdict whose flag is true is the full `(true, "Valid")` verdict. -/
theorem validateNodes_eq_of_true (allowed : List String) (q : List Node)
    (h : (validateNodes allowed q).1 = true) :
    validateNodes allowed q = (true, "Valid") := by
  induction q using validateNodes.induct allowed with
  | case1 => simp [validateNodes]
  | case2 n rest res hstep =>
    rw [validateNodes] at h ⊢
    simp only [hstep] at h ⊢
    rcases validateStep_some allowed n res hstep with ⟨id, _, rfl⟩ | rfl <;>
      simp at h
  | case3 n rest hstep ih =>
    rw [validateNodes] at h ⊢
    simp only [hstep] at h ⊢
    exact ih h

/-- Every failing verdict carries one of the two reasons: a named tool outside
the allow-list, or the only-direct-calls message. -/
theorem validateNodes_reasons (allowed : List String) (q : List Node)
    (h : (validateNodes allowed q).1 = false) :
    (∃ id, id ∉ allowed ∧ validateNodes allowed q = (false, notAllowedMsg id)) ∨
      validateNodes allowed q = (false, onlyDirectMsg) := by
  induction q using validateNodes.induct allowed with
  | case1 => simp [validateNodes] at h
  | case2 n rest res hstep =>
    rw [validateNodes] at h ⊢
    simp only [hstep] at h ⊢
    exact validateStep_some allowed n res hstep
  | case3 n rest hstep ih =>
    rw [validateNodes] at h ⊢
    simp only [hstep] at h ⊢
    exact ih h

/-- When every simple-name call in the queue uses an allowed name but some
call has a bad shape, the verdict is the only-direct-calls failure: the
breadth-first scan can only ever stop at a bad-shape call. -/
theorem validateNodes_onlyDirect (allowed : List String) (q : List Node)
    (hdis : qAny (isDisallowedName allowed) q = false)
    (hbad : qAny isBadShape q = true) :
    validateNodes allowed q = (false, onlyDirectMsg) := by
  induction q using validateNodes.induct allowed with
  | case1 => simp [qAny] at hbad
  | case2 n rest res hstep =>
    have hc : n.callHere (offender allowed) = true := by
      rcases h : n.callHere (offender allowed) with _ | _
      · exact absurd ((validateStep_none_iff allowed n).mpr h) (by simp [hstep])
      · rfl
    have hcd : n.callHere (isDisallowedName allowed) = false := by
      rcases h : n.callHere (isDisallowedName allowed) with _ | _
      · rfl
      · exfalso
        have : qAny (isDisallowedName allowed) (n :: rest) = true := by
          rw [qAny_cons, Node.anyCallN_eq, h]
          simp
        rw [this] at hdis
        exact absurd hdis (by simp)
    have hcb : n.callHere isBadShape = true := by
      have := callHere_or isBadShape (isDisallowedName allowed) n
      rw [show (fun e => isBadShape e || isDisallowedName allowed e) = offender allowed from rfl] at this
      rw [hc, hcd] at this
      simpa using this.symm
    rw [validateNodes]
    simp only [hstep]
    have := validateStep_badShape allowed n hcb
    rw [this] at hstep
    exact (Option.some_inj.mp hstep).symm
  | case3 n rest hstep ih =>
    have hc : n.callHere (offender allowed) = false :=
      (validateStep_none_iff allowed n).mp hstep
    have hor := callHere_or isBadShape (isDisallowedName allowed) n
    rw [show (fun e => isBadShape e || isDisallowedName allowed e) = offender allowed from rfl] at hor
    rw [hc] at hor
    have hcb : n.callHere isBadShape = false := by
      rcases h : n.callHere isBadShape with _ | _
      · rfl
      · rw [h] at hor; simp at hor
    have hcd : n.callHere (isDisallowedName allowed) = false := by
      rcases h : n.callHere (isDisallowedName allowed) with _ | _
      · rfl
      · rw [h] at hor; simp at hor
    rw [validateNodes]
    simp only [hstep]
    exact ih (by rw [← qAny_step _ _ _ hcd]; exact hdis)
      (by rw [← qAny_step _ _ _ hcb]; exact hbad)

/-- Any budget of at least the queue size makes the fueled scan agree with
the breadth-first walk: the budget-exhausted arm is unreachable. -/
theorem validateNodesF_eq (allowed : List String) :
    ∀ (q : List Node) (fuel : Nat), queueSize q ≤ fuel →
      validateNodesF allowed fuel q = validateNodes allowed q := by
  intro q
  induction q using validateNodes.induct allowed with
  | case1 =>
    intro fuel hf
    cases fuel <;> simp [validateNodes, validateNodesF]
  | case2 n rest res hstep =>
    intro fuel hf
    have h1 : 1 ≤ queueSize (n :: rest) := by
      rw [queueSize_cons]
      have := Node.size_children n
      omega
    cases fuel with
    | zero => omega
    | succ f =>
      rw [validateNodes, validateNodesF]
      simp only [hstep]
  | case3 n rest hstep ih =>
    intro fuel hf
    have h1 : 1 ≤ queueSize (n :: rest) := by
      rw [queueSize_cons]
      have := Node.size_children n
      omega
    cases fuel with
    | zero => omega
    | succ f =>
      rw [validateNodes, validateNodesF]
      simp only [hstep]
      apply ih
      have h2 : queueSize (rest ++ n.children) + 1 = queueSize (n :: rest) := by
        rw [queueSize_append, queueSize_cons]
        have := Node.size_children n
        omega
      omega

/-- The pipeline's scan is the breadth-first walk. -/
theorem validate_module_eq (allowed : List String) (body : List PyStmt) :
    validate_module allowed body = validateNodes allowed (body.map Node.stm) :=
  validateNodesF_eq allowed (body.map Node.stm) _ le_rfl

mutual
theorem anyCall_mono (p r : PyExpr → Bool) (hpr : ∀ e, p e = true → r e = true) :
    ∀ e : PyExpr, anyCall p e = true → anyCall r e = true
  | .name _, h => by simp [anyCall] at h
  | .const _, h => by simp [anyCall] at h
  | .attr b _, h => by
    simp only [anyCall] at h ⊢
    exact anyCall_mono p r hpr b h
  | .call f args kws, h => by
    simp only [anyCall, Bool.or_eq_true] at h ⊢
    rcases h with ((h | h) | h) | h
    · exact Or.inl (Or.inl (Or.inl (hpr _ h)))
    · exact Or.inl (Or.inl (Or.inr (anyCall_mono p r hpr f h)))
    · exact Or.inl (Or.inr (anyCallList_mono p r hpr args h))
    · exact Or.inr (anyCallKw_mono p r hpr kws h)
  | .listE es, h => by
    simp only [anyCall] at h ⊢
    exact anyCallList_mono p r hpr es h

theorem anyCallList_mono (p r : PyExpr → Bool) (hpr : ∀ e, p e = true → r e = true) :
    ∀ es : List PyExpr, anyCallList p es = true → anyCallList r es = true
  | [], h => by simp [anyCallList] at h
  | e :: es, h => by
    simp only [anyCallList, Bool.or_eq_true] at h ⊢
    rcases h with h | h
    · exact Or.inl (anyCall_mono p r hpr e h)
    · exact Or.inr (anyCallList_mono p r hpr es h)

theorem anyCallKw_mono (p r : PyExpr → Bool) (hpr : ∀ e, p e = true → r e = true) :
    ∀ ks : List PyKeyword, anyCallKw p ks = true → anyCallKw r ks = true
  | [], h => by simp [anyCallKw] at h
  | .mk a v :: ks, h => by
    simp only [anyCallKw, Bool.or_eq_true] at h ⊢
    rcases h with h | h
    · exact Or.inl (anyCall_mono p r hpr v h)
    · exact Or.inr (anyCallKw_mono p r hpr ks h)
end

mutual
/-- An expression containing any call is rejected by `ast.literal_eval`. -/
theorem litEval_none_of_call :
    ∀ e : PyExpr, anyCall isAnyCall e = true → litEval e = none
  | .name _, _ => rfl
  | .const _, h => by simp [anyCall] at h
  | .attr _ _, _ => rfl
  | .call _ _ _, _ => rfl
  | .listE es, h => by
    have : litEvalList es = none :=
      litEvalList_none_of_call es (by simpa only [anyCall] using h)
    simp [litEval, this]

theorem litEvalList_none_of_call :
    ∀ es : List PyExpr, anyCallList isAnyCall es = true → litEvalList es = none
  | [], h => by simp [anyCallList] at h
  | e :: es, h => by
    simp only [anyCallList, Bool.or_eq_true] at h
    rcases h with h | h
    · simp [litEvalList, litEval_none_of_call e h]
    · cases hl : litEval e <;>
        simp [litEvalList, hl, litEvalList_none_of_call es h]
end

/-- A bare name reference is rejected by `ast.literal_eval`. -/
theorem litEval_none_of_nameRef (a : PyExpr) (h : isNameRef a = true) :
    litEval a = none := by
  cases a <;> simp [isNameRef] at h ⊢ <;> rfl

/-- When every positional argument is a literal, the loop succeeds. -/
theorem evalArgs_ok (args : List PyExpr)
    (h : ∀ a ∈ args, (litEval a).isSome = true) :
    ∃ vs, evalArgs args = .ok vs := by
  induction args with
  | nil => exact ⟨[], rfl⟩
  | cons a rest ih =>
    have ha := h a (by simp)
    cases hl : litEval a with
    | none => rw [hl] at ha; simp at ha
    | some v =>
      obtain ⟨vs, hvs⟩ := ih (fun x hx => h x (by simp [hx]))
      exact ⟨v :: vs, by simp [evalArgs, hl, hvs]⟩

/-- The positional loop raises the non-literal message of the first offending
argument. -/
theorem evalArgs_first_err (args : List PyExpr)
    (h : (args.any fun a => (litEval a).isNone) = true) :
    ∃ a, a ∈ args ∧ litEval a = none ∧ evalArgs args = .error (nonLitPosMsg a) := by
  induction args with
  | nil => simp at h
  | cons a rest ih =>
    cases hl : litEval a with
    | none => exact ⟨a, by simp, hl, by simp [evalArgs, hl]⟩
    | some v =>
      simp [hl] at h
      obtain ⟨a', hmem, hnone, herr⟩ := ih (by simpa using h)
      exact ⟨a', by simp [hmem], hnone, by simp [evalArgs, hl, herr]⟩

/-- The keyword loop raises on unpacking or on any non-literal value. -/
theorem evalKwargs_err_any (kws : List PyKeyword)
    (h : (kws.any fun k => k.arg.isNone || (litEval k.value).isNone) = true) :
    ∃ e, evalKwargs kws = .error e := by
  induction kws with
  | nil => simp at h
  | cons k rest ih =>
    cases k with
    | mk a v =>
      cases a with
      | none => exact ⟨unpackMsg, rfl⟩
      | some key =>
        cases hl : litEval v with
        | none => exact ⟨nonLitKwMsg key, by simp [evalKwargs, hl]⟩
        | some w =>
          simp [PyKeyword.arg, PyKeyword.value, hl] at h
          obtain ⟨e, he⟩ := ih (by simpa using h)
          exact ⟨e, by simp [evalKwargs, hl, he]⟩

/-- With no unpacking present, the keyword loop raises the non-literal
message of the first offending keyword. -/
theorem evalKwargs_first_err (kws : List PyKeyword)
    (hall : (kws.all fun k => k.arg.isSome) = true)
    (h : (kws.any fun k => (litEval k.value).isNone) = true) :
    ∃ k v, PyKeyword.mk (some k) v ∈ kws ∧ litEval v = none ∧
      evalKwargs kws = .error (nonLitKwMsg k) := by
  induction kws with
  | nil => simp at h
  | cons kw rest ih =>
    cases kw with
    | mk a v =>
      cases a with
      | none => simp [PyKeyword.arg] at hall
      | some key =>
        cases hl : litEval v with
        | none => exact ⟨key, v, by simp, hl, by simp [evalKwargs, hl]⟩
        | some w =>
          simp [PyKeyword.arg, PyKeyword.value, hl] at h hall
          obtain ⟨k', v', hmem, hnone, herr⟩ :=
            ih (by simpa using hall) (by simpa using h)
          exact ⟨k', v', by simp [hmem], hnone, by simp [evalKwargs, hl, herr]⟩

/-- A disallowed-name call is in particular a call. -/
theorem isAnyCall_of_isDisallowedName (allowed : List String) (e : PyExpr)
    (h : isDisallowedName allowed e = true) : isAnyCall e = true := by
  cases e with
  | call f args kws => rfl
  | name id => simp [isDisallowedName] at h
  | const c => simp [isDisallowedName] at h
  | attr b a => simp [isDisallowedName] at h
  | listE es => simp [isDisallowedName] at h

/-- A candidate that invokes a simple name outside the allow-list can never
parse: `_parse_tool_call` raises on one of its checks. -/
theorem parse_result_error_of_disallowed (allowed : List String)
    (parse : String → ParseResult) (code : String) (m : List PyStmt)
    (hp : parse code = .ok m)
    (hd : module_any (isDisallowedName allowed) m = true) :
    ∃ e, parse_tool_call_result allowed parse code = .error e := by
  cases m with
  | nil => simp [module_any, qAny] at hd
  | cons s rest =>
    cases rest with
    | cons s2 rest2 =>
      exact ⟨singleExprMsg, by cases s <;> simp [parse_tool_call_result, hp]⟩
    | nil =>
      cases s with
      | assign t v => exact ⟨singleExprMsg, by simp [parse_tool_call_result, hp]⟩
      | exprStmt v =>
        cases v with
        | name id => exact ⟨mustBeCallMsg, by simp [parse_tool_call_result, hp]⟩
        | const c => exact ⟨mustBeCallMsg, by simp [parse_tool_call_result, hp]⟩
        | attr b a => exact ⟨mustBeCallMsg, by simp [parse_tool_call_result, hp]⟩
        | listE es => exact ⟨mustBeCallMsg, by simp [parse_tool_call_result, hp]⟩
        | call f args kws =>
          cases f with
          | const c =>
            exact ⟨parseOnlyDirectMsg, by simp [parse_tool_call_result, hp]⟩
          | attr b a =>
            exact ⟨parseOnlyDirectMsg, by simp [parse_tool_call_result, hp]⟩
          | call g as ks =>
            exact ⟨parseOnlyDirectMsg, by simp [parse_tool_call_result, hp]⟩
          | listE es =>
            exact ⟨parseOnlyDirectMsg, by simp [parse_tool_call_result, hp]⟩
          | name fname =>
            by_cases hf : fname ∈ allowed
            · -- the disallowed call must live inside an argument
              have hfalse :
                  isDisallowedName allowed (.call (.name fname) args kws) = false := by
                simp [isDisallowedName, hf]
              simp only [module_any, qAny, List.map_cons, List.map_nil,
                List.any_cons, List.any_nil, Node.anyCallN, anyCall, hfalse,
                Bool.false_or, Bool.or_false, Bool.or_eq_true] at hd
              have hd' : (args.any (anyCall (isDisallowedName allowed))) = true ∨
                  (kws.any fun k => anyCall (isDisallowedName allowed) k.value) = true := by
                rcases hd with h1 | h1
                · exact Or.inl (by rw [← anyCallList_eq]; exact h1)
                · exact Or.inr (by rw [← anyCallKw_eq]; exact h1)
              cases hargs : evalArgs args with
              | error e =>
                exact ⟨e, by simp [parse_tool_call_result, hp, hf, hargs]⟩
              | ok vs =>
                -- the positional arguments all evaluated, so the call is in a keyword
                have hkw : (kws.any fun k =>
                    anyCall (isDisallowedName allowed) k.value) = true := by
                  rcases hd' with h1 | h1
                  · exfalso
                    simp only [List.any_eq_true] at h1
                    obtain ⟨a, hmem, hcall⟩ := h1
                    have hnone : litEval a = none :=
                      litEval_none_of_call a
                        (anyCall_mono _ _ (isAnyCall_of_isDisallowedName allowed) a hcall)
                    obtain ⟨a', _, _, herr⟩ := evalArgs_first_err args
                      (by simp only [List.any_eq_true]; exact ⟨a, hmem, by simp [hnone]⟩)
                    rw [herr] at hargs
                    exact absurd hargs (by simp)
                  · exact h1
                have : ∃ e, evalKwargs kws = .error e := by
                  apply evalKwargs_err_any
                  simp only [List.any_eq_true] at hkw ⊢
                  obtain ⟨k, hmem, hcall⟩ := hkw
                  refine ⟨k, hmem, ?_⟩
                  have hnone : litEval k.value = none :=
                    litEval_none_of_call k.value
                      (anyCall_mono _ _ (isAnyCall_of_isDisallowedName allowed) _ hcall)
                  simp [hnone]
                obtain ⟨e, he⟩ := this
                exact ⟨e, by simp [parse_tool_call_result, hp, hf, hargs, he]⟩
            · exact ⟨notInAllowedToolsMsg fname,
                by simp [parse_tool_call_result, hp, hf]⟩

/-- A syntactically valid module with no call expression is rejected by the
parser as not a single function call. -/
theorem parse_result_no_call (allowed : List String)
    (parse : String → ParseResult) (code : String) (m : List PyStmt)
    (hp : parse code = .ok m)
    (hnc : module_any isAnyCall m = false) :
    parse_tool_call_result allowed parse code = .error singleExprMsg ∨
      parse_tool_call_result allowed parse code = .error mustBeCallMsg := by
  cases m with
  | nil => exact Or.inl (by simp [parse_tool_call_result, hp])
  | cons s rest =>
    cases rest with
    | cons s2 rest2 =>
      exact Or.inl (by cases s <;> simp [parse_tool_call_result, hp])
    | nil =>
      cases s with
      | assign t v => exact Or.inl (by simp [parse_tool_call_result, hp])
      | exprStmt v =>
        cases v with
        | name id => exact Or.inr (by simp [parse_tool_call_result, hp])
        | const c => exact Or.inr (by simp [parse_tool_call_result, hp])
        | attr b a => exact Or.inr (by simp [parse_tool_call_result, hp])
        | listE es => exact Or.inr (by simp [parse_tool_call_result, hp])
        | call f args kws =>
          exfalso
          simp [module_any, qAny, Node.anyCallN, anyCall, isAnyCall] at hnc

/-- When a validated single call to an allowed name has a variable (name
reference) among its arguments, the parser fails with the non-literal error
identifying the first offending argument (a positional one, or — when no
unpacking precedes it — a keyword one). -/
theorem parse_result_nonlit (allowed : List String)
    (parse : String → ParseResult) (code fname : String)
    (args : List PyExpr) (kws : List PyKeyword)
    (hp : parse code = .ok [PyStmt.exprStmt (.call (.name fname) args kws)])
    (hf : fname ∈ allowed)
    (hcase : (args.any fun a => isNameRef a) = true ∨
      ((kws.all fun k => k.arg.isSome) = true ∧
        (kws.any fun k => isNameRef k.value) = true)) :
    (∃ a, a ∈ args ∧ litEval a = none ∧
        parse_tool_call_result allowed parse code = .error (nonLitPosMsg a)) ∨
      (∃ k v, PyKeyword.mk (some k) v ∈ kws ∧ litEval v = none ∧
        parse_tool_call_result allowed parse code = .error (nonLitKwMsg k)) := by
  by_cases hargsAny : (args.any fun a => (litEval a).isNone) = true
  · obtain ⟨a, hmem, hnone, herr⟩ := evalArgs_first_err args hargsAny
    exact Or.inl ⟨a, hmem, hnone,
      by simp [parse_tool_call_result, hp, hf, herr]⟩
  · have hargsOk : ∃ vs, evalArgs args = .ok vs := by
      apply evalArgs_ok
      intro a hmem
      cases hl : litEval a with
      | some v => rfl
      | none =>
        exact absurd (show (args.any fun a => (litEval a).isNone) = true by
          simp only [List.any_eq_true]
          exact ⟨a, hmem, by simp [hl]⟩) hargsAny
    obtain ⟨vs, hvs⟩ := hargsOk
    have hkwcase : (kws.all fun k => k.arg.isSome) = true ∧
        (kws.any fun k => isNameRef k.value) = true := by
      rcases hcase with h1 | h1
      · exfalso
        simp only [List.any_eq_true] at h1
        obtain ⟨a, hmem, hname⟩ := h1
        exact hargsAny (by
          simp only [List.any_eq_true]
          exact ⟨a, hmem, by simp [litEval_none_of_nameRef a hname]⟩)
      · exact h1
    obtain ⟨k, v, hmem, hnone, herr⟩ := evalKwargs_first_err kws hkwcase.1 (by
      simp only [List.any_eq_true] at hkwcase ⊢
      obtain ⟨kw, hm, hname⟩ := hkwcase.2
      exact ⟨kw, hm, by simp [litEval_none_of_nameRef _ hname]⟩)
    exact Or.inr ⟨k, v, hmem, hnone,
      by simp [parse_tool_call_result, hp, hf, hvs, herr]⟩

theorem lookup_mem {β : Type} (l : List (String × β)) (k : String) (v : β)
    (h : l.lookup k = some v) : (k, v) ∈ l := by
  induction l with
  | nil => simp [List.lookup] at h
  | cons p rest ih =>
    cases p with
    | mk a b =>
      rw [List.lookup] at h
      by_cases hk : k = a
      · subst hk
        simp at h
        simp [h]
      · have hb : (k == a) = false := beq_false_of_ne hk
        rw [hb] at h
        simp at h
        right
        exact ih h

/-- Validation-cache consistency: every cache entry is the verdict recomputed
fresh.  Holds for every state reachable from a fresh pipeline with a fixed
allow-list. -/
def ValCacheOk (allowed : List String) (parse : String → ParseResult)
    (st : PipeState) : Prop :=
  ∀ c r, (c, r) ∈ st.validation_cache → r = validate_fresh allowed parse c

/-- Parse-cache consistency: every cache entry is a successful fresh parse. -/
def ParseCacheOk (allowed : List String) (parse : String → ParseResult)
    (st : PipeState) : Prop :=
  ∀ c p, (c, p) ∈ st.parse_cache → parse_tool_call_result allowed parse c = .ok p

theorem ValCacheOk_of_eq {allowed parse st st'}
    (h : ValCacheOk allowed parse st)
    (he : st'.validation_cache = st.validation_cache) :
    ValCacheOk allowed parse st' := by
  intro c r hcr
  exact h c r (he ▸ hcr)

theorem ParseCacheOk_of_eq {allowed parse st st'}
    (h : ParseCacheOk allowed parse st)
    (he : st'.parse_cache = st.parse_cache) :
    ParseCacheOk allowed parse st' := by
  intro c p hcp
  exact h c p (he ▸ hcp)

/-- On a consistent cache, `validate_tool_call` answers exactly the fresh
verdict, touches nothing but the validation cache, and keeps it consistent. -/
theorem validate_tool_call_spec (allowed : List String)
    (parse : String → ParseResult) (st : PipeState) (code : String)
    (h : ValCacheOk allowed parse st) :
    (validate_tool_call allowed parse st code).1 = validate_fresh allowed parse code ∧
    (validate_tool_call allowed parse st code).2.parse_cache = st.parse_cache ∧
    (validate_tool_call allowed parse st code).2.tool_execution_log = st.tool_execution_log ∧
    (validate_tool_call allowed parse st code).2.clock = st.clock ∧
    ValCacheOk allowed parse (validate_tool_call allowed parse st code).2 := by
  cases hm : st.validation_cache.lookup code with
  | some r =>
    have hr := h code r (lookup_mem _ _ _ hm)
    refine ⟨by simp [validate_tool_call, hm, hr], by simp [validate_tool_call, hm],
      by simp [validate_tool_call, hm], by simp [validate_tool_call, hm], ?_⟩
    simp only [validate_tool_call, hm]
    exact h
  | none =>
    refine ⟨by simp [validate_tool_call, hm], by simp [validate_tool_call, hm],
      by simp [validate_tool_call, hm], by simp [validate_tool_call, hm], ?_⟩
    simp only [validate_tool_call, hm]
    intro c r hcr
    simp at hcr
    rcases hcr with ⟨hc, hr⟩ | hold
    · subst hc; subst hr; rfl
    · exact h c r hold

/-- On a consistent cache, `_parse_tool_call` answers exactly the fresh parse
result, touches nothing but the parse cache, and keeps it consistent. -/
theorem parse_tool_call_spec (allowed : List String)
    (parse : String → ParseResult) (st : PipeState) (code : String)
    (h : ParseCacheOk allowed parse st) :
    (parse_tool_call allowed parse st code).1 = parse_tool_call_result allowed parse code ∧
    (parse_tool_call allowed parse st code).2.validation_cache = st.validation_cache ∧
    (parse_tool_call allowed parse st code).2.tool_execution_log = st.tool_execution_log ∧
    (parse_tool_call allowed parse st code).2.clock = st.clock ∧
    ParseCacheOk allowed parse (parse_tool_call allowed parse st code).2 := by
  cases hm : st.parse_cache.lookup code with
  | some p =>
    have hp := h code p (lookup_mem _ _ _ hm)
    refine ⟨by simp [parse_tool_call, hm, hp], by simp [parse_tool_call, hm],
      by simp [parse_tool_call, hm], by simp [parse_tool_call, hm], ?_⟩
    simp only [parse_tool_call, hm]
    exact h
  | none =>
    cases hres : parse_tool_call_result allowed parse code with
    | ok p =>
      refine ⟨by simp [parse_tool_call, hm, hres], by simp [parse_tool_call, hm, hres],
        by simp [parse_tool_call, hm, hres], by simp [parse_tool_call, hm, hres], ?_⟩
      simp only [parse_tool_call, hm, hres]
      intro c q hcq
      simp at hcq
      rcases hcq with ⟨hc, hq⟩ | hold
      · subst hc; subst hq; exact hres
      · exact h c q hold
    | error e =>
      refine ⟨by simp [parse_tool_call, hm, hres], by simp [parse_tool_call, hm, hres],
        by simp [parse_tool_call, hm, hres], by simp [parse_tool_call, hm, hres], ?_⟩
      simp only [parse_tool_call, hm, hres]
      exact h

/-- The fresh verdict flag of a candidate. -/
def validBool (allowed : List String) (parse : String → ParseResult)
    (code : String) : Bool :=
  (validate_fresh allowed parse code).1

/-- Whether executing the candidate would succeed: the parse result is a call
to a registered callable whose invocation returns normally.  Deterministic in
the registry, so cache hits and fresh runs agree. -/
def execSuccessSpec (allowed : List String) (parse : String → ParseResult)
    (registry : Registry) (code : String) : Bool :=
  match parse_tool_call_result allowed parse code with
  | .error _ => false
  | .ok (fname, as, ks) =>
    match registry fname with
    | none => false
    | some fn =>
      match fn as ks with
      | .ok _ => true
      | .error _ => false

theorem readClock_parse_cache (st : PipeState) :
    (readClock st).2.parse_cache = st.parse_cache := by
  cases h : st.clock <;> simp [readClock, h]

theorem readClock_validation_cache (st : PipeState) :
    (readClock st).2.validation_cache = st.validation_cache := by
  cases h : st.clock <;> simp [readClock, h]

theorem readClock_log (st : PipeState) :
    (readClock st).2.tool_execution_log = st.tool_execution_log := by
  cases h : st.clock <;> simp [readClock, h]

/-- `execute_tool_call` always returns an outcome for the requested candidate,
its success flag mirrors the pure execution specification, the outcome is
appended to the log, and the caches survive consistently.  In particular the
function is total: no exception escapes. -/
theorem execute_tool_call_spec (allowed : List String)
    (parse : String → ParseResult) (registry : Registry) (st : PipeState)
    (code : String) (h : ParseCacheOk allowed parse st) :
    (execute_tool_call allowed parse registry st code).1.code = code ∧
    (execute_tool_call allowed parse registry st code).1.success =
      execSuccessSpec allowed parse registry code ∧
    (execute_tool_call allowed parse registry st code).2.tool_execution_log =
      st.tool_execution_log ++ [(execute_tool_call allowed parse registry st code).1] ∧
    (execute_tool_call allowed parse registry st code).2.validation_cache =
      st.validation_cache ∧
    ParseCacheOk allowed parse (execute_tool_call allowed parse registry st code).2 := by
  rcases h1 : readClock st with ⟨t0, st1⟩
  have e1 : st1.parse_cache = st.parse_cache := by
    rw [← readClock_parse_cache st, h1]
  have e2 : st1.validation_cache = st.validation_cache := by
    rw [← readClock_validation_cache st, h1]
  have e3 : st1.tool_execution_log = st.tool_execution_log := by
    rw [← readClock_log st, h1]
  have hp1 : ParseCacheOk allowed parse st1 := ParseCacheOk_of_eq h e1
  obtain ⟨hpa, hpb, hpc, hpd, hpe⟩ := parse_tool_call_spec allowed parse st1 code hp1
  rcases h2 : parse_tool_call allowed parse st1 code with ⟨pr, st2⟩
  rw [h2] at hpa hpb hpc hpd hpe
  simp only at hpa hpb hpc hpd hpe
  cases pr with
  | error e =>
    rcases h3 : readClock st2 with ⟨t1, st3⟩
    have f1 : st3.parse_cache = st2.parse_cache := by
      rw [← readClock_parse_cache st2, h3]
    have f2 : st3.validation_cache = st2.validation_cache := by
      rw [← readClock_validation_cache st2, h3]
    have f3 : st3.tool_execution_log = st2.tool_execution_log := by
      rw [← readClock_log st2, h3]
    refine ⟨?_, ?_, ?_, ?_, ?_⟩ <;>
      simp only [execute_tool_call, h1, h2, h3]
    · simp [execSuccessSpec, ← hpa]
    · simp [f3, hpc, e3]
    · simp [f2, hpb, e2]
    · exact ParseCacheOk_of_eq hpe (by simp [f1])
  | ok parsed =>
    rcases parsed with ⟨fname, as, ks⟩
    cases hreg : registry fname with
    | none =>
      rcases h3 : readClock st2 with ⟨t1, st3⟩
      have f1 : st3.parse_cache = st2.parse_cache := by
        rw [← readClock_parse_cache st2, h3]
      have f2 : st3.validation_cache = st2.validation_cache := by
        rw [← readClock_validation_cache st2, h3]
      have f3 : st3.tool_execution_log = st2.tool_execution_log := by
        rw [← readClock_log st2, h3]
      refine ⟨?_, ?_, ?_, ?_, ?_⟩ <;>
        simp only [execute_tool_call, h1, h2, h3, hreg]
      · simp [execSuccessSpec, ← hpa, hreg]
      · simp [f3, hpc, e3]
      · simp [f2, hpb, e2]
      · exact ParseCacheOk_of_eq hpe (by simp [f1])
    | some fn =>
      cases hfn : fn as ks with
      | ok v =>
        rcases h3 : readClock st2 with ⟨t1, st3⟩
        have f1 : st3.parse_cache = st2.parse_cache := by
          rw [← readClock_parse_cache st2, h3]
        have f2 : st3.validation_cache = st2.validation_cache := by
          rw [← readClock_validation_cache st2, h3]
        have f3 : st3.tool_execution_log = st2.tool_execution_log := by
          rw [← readClock_log st2, h3]
        refine ⟨?_, ?_, ?_, ?_, ?_⟩ <;>
          simp only [execute_tool_call, h1, h2, h3, hreg, hfn]
        · simp [execSuccessSpec, ← hpa, hreg, hfn]
        · simp [f3, hpc, e3]
        · simp [f2, hpb, e2]
        · exact ParseCacheOk_of_eq hpe (by simp [f1])
      | error e =>
        rcases h3 : readClock st2 with ⟨t1, st3⟩
        have f1 : st3.parse_cache = st2.parse_cache := by
          rw [← readClock_parse_cache st2, h3]
        have f2 : st3.validation_cache = st2.validation_cache := by
          rw [← readClock_validation_cache st2, h3]
        have f3 : st3.tool_execution_log = st2.tool_execution_log := by
          rw [← readClock_log st2, h3]
        refine ⟨?_, ?_, ?_, ?_, ?_⟩ <;>
          simp only [execute_tool_call, h1, h2, h3, hreg, hfn]
        · simp [execSuccessSpec, ← hpa, hreg, hfn]
        · simp [f3, hpc, e3]
        · simp [f2, hpb, e2]
        · exact ParseCacheOk_of_eq hpe (by simp [f1])

/-- Full behaviour of the per-candidate loop on consistent caches: one outcome
per candidate in order, the aggregated error flag, validation failures kept
out of the log, executed outcomes appended in order, and cache consistency
preserved. -/
theorem runCandidates_spec (allowed : List String) (parse : String → ParseResult)
    (registry : Registry) :
    ∀ (cs : List String) (st : PipeState),
      ValCacheOk allowed parse st → ParseCacheOk allowed parse st →
      ∃ os he st',
        runCandidates allowed parse registry st cs = ((os, he), st') ∧
        os.map (fun o => o.code) = cs ∧
        he = (cs.any fun c => !validBool allowed parse c ||
          !execSuccessSpec allowed parse registry c) ∧
        (∀ o ∈ os, validBool allowed parse o.code = false →
          o = validationFailureOutcome o.code (validate_fresh allowed parse o.code).2) ∧
        (∀ o ∈ os, validBool allowed parse o.code = true →
          o.success = execSuccessSpec allowed parse registry o.code) ∧
        st'.tool_execution_log = st.tool_execution_log ++
          os.filter (fun o => validBool allowed parse o.code) ∧
        ValCacheOk allowed parse st' ∧ ParseCacheOk allowed parse st'
  | [], st, hv, hp =>
    ⟨[], false, st, rfl, rfl, by simp, by simp, by simp, by simp, hv, hp⟩
  | c :: rest, st, hv, hp => by
    obtain ⟨hva, hvb, hvc, hvd, hve⟩ := validate_tool_call_spec allowed parse st c hv
    rcases h1 : validate_tool_call allowed parse st c with ⟨⟨isv, msg⟩, stv⟩
    rw [h1] at hva hvb hvc hvd hve
    simp only at hva hvb hvc hvd hve
    have hisv : isv = validBool allowed parse c := by
      rw [validBool, ← hva]
    have hmsg : msg = (validate_fresh allowed parse c).2 := by
      rw [← hva]
    have hpv : ParseCacheOk allowed parse stv := ParseCacheOk_of_eq hp hvb
    cases hb : validBool allowed parse c with
    | false =>
      obtain ⟨os, he, st', hrun, hmap, hhe, hinv, hvalid, hlog, hv', hp'⟩ :=
        runCandidates_spec allowed parse registry rest stv hve hpv
      refine ⟨validationFailureOutcome c msg :: os, true || he, st',
        ?_, ?_, ?_, ?_, ?_, ?_, hv', hp'⟩
      · simp only [runCandidates, h1]
        rw [hisv, hb]
        simp [hrun]
      · simp [validationFailureOutcome, hmap]
      · simp [hb, hhe]
      · intro o hmem hcode
        rw [List.mem_cons] at hmem
        rcases hmem with rfl | hmem
        · simp only [validationFailureOutcome] at hcode ⊢
          rw [hmsg]
        · exact hinv o hmem hcode
      · intro o hmem hcode
        rw [List.mem_cons] at hmem
        rcases hmem with rfl | hmem
        · simp only [validationFailureOutcome] at hcode
          rw [hcode] at hb
          exact absurd hb (by simp)
        · exact hvalid o hmem hcode
      · simp only [hlog, hvc]
        have : validBool allowed parse (validationFailureOutcome c msg).code = false := by
          simpa [validationFailureOutcome] using hb
        simp [List.filter, this]
    | true =>
      obtain ⟨hea, heb, hec, hed, hee⟩ :=
        execute_tool_call_spec allowed parse registry stv c hpv
      rcases h2 : execute_tool_call allowed parse registry stv c with ⟨o, ste⟩
      rw [h2] at hea heb hec hed hee
      simp only at hea heb hec hed hee
      have hvest : ValCacheOk allowed parse ste := ValCacheOk_of_eq hve hed
      obtain ⟨os, he, st', hrun, hmap, hhe, hinv, hvalid, hlog, hv', hp'⟩ :=
        runCandidates_spec allowed parse registry rest ste hvest hee
      refine ⟨o :: os, !o.success || he, st', ?_, ?_, ?_, ?_, ?_, ?_, hv', hp'⟩
      · simp only [runCandidates, h1]
        rw [hisv, hb]
        simp [h2, hrun]
      · simp [hea, hmap]
      · simp [hb, hhe, heb, hea]
      · intro ox hmem hcode
        rw [List.mem_cons] at hmem
        rcases hmem with rfl | hmem
        · rw [hea] at hcode
          rw [hcode] at hb
          exact absurd hb (by simp)
        · exact hinv ox hmem hcode
      · intro ox hmem hcode
        rw [List.mem_cons] at hmem
        rcases hmem with rfl | hmem
        · rw [hea, heb]
        · exact hvalid ox hmem hcode
      · have hco : validBool allowed parse o.code = true := by rw [hea]; exact hb
        simp only [hlog, hec, hvc]
        simp [List.filter, hco]

/-- A cycle over at least one candidate produces at least one outcome. -/
theorem runCandidates_cons_ne (allowed : List String)
    (parse : String → ParseResult) (registry : Registry) (st : PipeState)
    (c : String) (cs : List String) :
    (runCandidates allowed parse registry st (c :: cs)).1.1 ≠ [] := by
  rcases h1 : validate_tool_call allowed parse st c with ⟨⟨isv, msg⟩, stv⟩
  simp only [runCandidates, h1]
  cases isv with
  | false =>
    rcases h3 : runCandidates allowed parse registry stv cs with ⟨⟨os, he⟩, st'⟩
    simp [h3]
  | true =>
    rcases h2 : execute_tool_call allowed parse registry stv c with ⟨o, ste⟩
    rcases h3 : runCandidates allowed parse registry ste cs with ⟨⟨os, he⟩, st'⟩
    simp [h2, h3]

/-- A response with at least one extracted candidate yields at least one
outcome (given a positive per-cycle cap). -/
theorem process_tool_cycle_ne (allowed : List String)
    (parse : String → ParseResult) (registry : Registry) (maxPC : Nat)
    (st : PipeState) (resp : List Seg) (h : extract_tool_calls resp ≠ [])
    (hm : 1 ≤ maxPC) :
    (process_tool_cycle allowed parse registry maxPC st resp).1.1 ≠ [] := by
  cases he : extract_tool_calls resp with
  | nil => exact absurd he h
  | cons c cs =>
    cases maxPC with
    | zero => omega
    | succ m =>
      simp only [process_tool_cycle, he, List.isEmpty_cons, List.take_succ_cons]
      exact runCandidates_cons_ne allowed parse registry st c (cs.take m)

theorem appendTurn_oracle (st : DriverState) (t : Turn) :
    (appendTurn st t).oracle = st.oracle := rfl

theorem appendTurn_calls (st : DriverState) (t : Turn) :
    (appendTurn st t).calls = st.calls := rfl

theorem foldl_appendTurn_oracle (g : Outcome → Turn) (l : List Outcome)
    (st : DriverState) :
    (l.foldl (fun s o => appendTurn s (g o)) st).oracle = st.oracle := by
  induction l generalizing st with
  | nil => rfl
  | cons o l ih => rw [List.foldl_cons, ih, appendTurn_oracle]

theorem foldl_appendTurn_calls (g : Outcome → Turn) (l : List Outcome)
    (st : DriverState) :
    (l.foldl (fun s o => appendTurn s (g o)) st).calls = st.calls := by
  induction l generalizing st with
  | nil => rfl
  | cons o l ih => rw [List.foldl_cons, ih, appendTurn_calls]

theorem cycleAppend_oracle (results : List Outcome) (st : DriverState) :
    (cycleAppend results st).oracle = st.oracle := by
  simp only [cycleAppend, foldl_appendTurn_oracle]

theorem cycleAppend_calls (results : List Outcome) (st : DriverState) :
    (cycleAppend results st).calls = st.calls := by
  simp only [cycleAppend, foldl_appendTurn_calls]

/-- The disclaimered forced-final answer is never the empty string. -/
theorem disclaimer_append_isEmpty (s : String) :
    (disclaimerPrefix ++ s).isEmpty = false := by
  rw [Bool.eq_false_iff]
  intro h
  have h2 := (String.isEmpty_iff _).mp h
  have h3 : (disclaimerPrefix ++ s).data = disclaimerPrefix.data ++ s.data :=
    String.data_append disclaimerPrefix s
  rw [h2] at h3
  simp [disclaimerPrefix] at h3

/-- Cycle-budget exhaustion: when the next `fuel` model responses all request
tools (non-empty, with extractable candidates), the driver runs exactly
`fuel` tool cycles, then makes exactly one more forced-final model call
(`fuel + 1` calls in total), and answers with the forced-final response —
stripped of fenced blocks and prefixed with the disclaimer whenever that
response is non-empty and still contains tool syntax. -/
theorem runCycles_budget (allowed : List String) (parse : String → ParseResult)
    (registry : Registry) (maxPC : Nat) (hm : 1 ≤ maxPC) :
    ∀ (fuel : Nat) (st : DriverState) (rs : List (List Seg)) (f : List Seg)
      (tail : List (List Seg)),
      st.oracle = rs ++ f :: tail →
      rs.length = fuel →
      1 ≤ fuel →
      (∀ r ∈ rs, (renderResponse r).isEmpty = false ∧ extract_tool_calls r ≠ []) →
      ∃ st',
        runCycles allowed parse registry maxPC fuel st =
          ((if (renderResponse f).isEmpty then renderResponse f
            else if (extract_tool_calls f).isEmpty then renderResponse f
            else disclaimerPrefix ++ strip_tool_blocks f), st') ∧
        st'.calls = st.calls + (fuel + 1) ∧
        st'.oracle = tail := by
  intro fuel
  induction fuel with
  | zero =>
    intro st rs f tail h1 h2 h3 h4
    exact absurd h3 (by omega)
  | succ n ih =>
    intro st rs f tail h1 h2 h3 h4
    cases rs with
    | nil => simp at h2
    | cons r rs' =>
      have hr := h4 r (by simp)
      have ho : st.oracle = r :: (rs' ++ f :: tail) := by simpa using h1
      have hn : rs'.length = n := by simpa using h2
      have hrs' : ∀ x ∈ rs', (renderResponse x).isEmpty = false ∧
          extract_tool_calls x ≠ [] := fun x hx => h4 x (by simp [hx])
      have hget : getResponse st =
          (r, { st with oracle := rs' ++ f :: tail, calls := st.calls + 1 }) := by
        simp [getResponse, ho]
      set st1 : DriverState :=
        { st with oracle := rs' ++ f :: tail, calls := st.calls + 1 } with hst1
      set st3 : DriverState := appendTurn st1 ⟨"assistant", renderResponse r⟩
        with hst3
      rcases hpc : process_tool_cycle allowed parse registry maxPC st3.pipe r
        with ⟨⟨results, hasErr⟩, p⟩
      have hne : results ≠ [] := by
        have := process_tool_cycle_ne allowed parse registry maxPC st3.pipe r hr.2 hm
        rw [hpc] at this
        exact this
      have hres_empty : results.isEmpty = false := by
        cases results with
        | nil => exact absurd rfl hne
        | cons a b => rfl
      set stY : DriverState := cycleAppend results { st3 with pipe := p } with hstY
      have hYor : stY.oracle = rs' ++ f :: tail := by
        rw [hstY, cycleAppend_oracle]
        simp [hst3, appendTurn, hst1]
      have hYca : stY.calls = st.calls + 1 := by
        rw [hstY, cycleAppend_calls]
        simp [hst3, appendTurn, hst1]
      have hstep : runCycles allowed parse registry maxPC (n + 1) st =
          (if n = 0 then forcedFinal stY
            else runCycles allowed parse registry maxPC n stY) := by
        rw [runCycles]
        rw [hget]
        simp only [hr.1, Bool.false_eq_true, if_false, ← hst1, ← hst3, hpc,
          hres_empty, ← hstY]
      cases n with
      | zero =>
        have hrs'nil : rs' = [] := List.length_eq_zero.mp hn
        subst hrs'nil
        rw [hstep]
        simp only [if_pos rfl]
        have hYor' : stY.oracle = f :: tail := by simpa using hYor
        have hor6 : (appendTurn stY ⟨"user", finalAnswerPrompt⟩).oracle =
            f :: tail := by
          rw [appendTurn_oracle]; exact hYor'
        have hg : getResponse (appendTurn stY ⟨"user", finalAnswerPrompt⟩) =
            (f, ⟨(appendTurn stY ⟨"user", finalAnswerPrompt⟩).conv,
              (appendTurn stY ⟨"user", finalAnswerPrompt⟩).pipe, tail,
              (appendTurn stY ⟨"user", finalAnswerPrompt⟩).calls + 1⟩) := by
          simp [getResponse, hor6]
        refine ⟨⟨(appendTurn stY ⟨"user", finalAnswerPrompt⟩).conv,
          (appendTurn stY ⟨"user", finalAnswerPrompt⟩).pipe, tail,
          (appendTurn stY ⟨"user", finalAnswerPrompt⟩).calls + 1⟩, ?_, ?_, ?_⟩
        · rw [forcedFinal, hg]
          cases hc1 : (renderResponse f).isEmpty <;>
            cases hc2 : (extract_tool_calls f).isEmpty <;>
            simp [hc1, hc2]
        · simp only [appendTurn_calls, hYca]
        · rfl
      | succ m =>
        rw [hstep]
        simp only [Nat.succ_ne_zero, if_false]
        obtain ⟨st', ha, hb, hc⟩ := ih stY rs' f tail hYor hn (by omega) hrs'
        refine ⟨st', ha, ?_, hc⟩
        rw [hb, hYca]
        omega

theorem offender_of_isBadShape (allowed : List String) (e : PyExpr)
    (h : isBadShape e = true) : offender allowed e = true := by
  simp [offender, h]

theorem offender_of_isDisallowedName (allowed : List String) (e : PyExpr)
    (h : isDisallowedName allowed e = true) : offender allowed e = true := by
  simp [offender, h]

theorem isAnyCall_of_offender (allowed : List String) (e : PyExpr)
    (h : offender allowed e = true) : isAnyCall e = true := by
  cases e with
  | call f args kws => rfl
  | name id => simp [offender, isBadShape, isDisallowedName] at h
  | const c => simp [offender, isBadShape, isDisallowedName] at h
  | attr b a => simp [offender, isBadShape, isDisallowedName] at h
  | listE es => simp [offender, isBadShape, isDisallowedName] at h

theorem Node.anyCallN_mono (p r : PyExpr → Bool) (hpr : ∀ e, p e = true → r e = true)
    (n : Node) (h : n.anyCallN p = true) : n.anyCallN r = true := by
  cases n with
  | stm s =>
    cases s with
    | exprStmt e => exact anyCall_mono p r hpr e h
    | assign t v => exact anyCall_mono p r hpr v h
  | exp e => exact anyCall_mono p r hpr e h
  | kw k => exact anyCall_mono p r hpr k.value h

theorem qAny_mono (p r : PyExpr → Bool) (hpr : ∀ e, p e = true → r e = true)
    (q : List Node) (h : qAny p q = true) : qAny r q = true := by
  simp only [qAny, List.any_eq_true] at h ⊢
  obtain ⟨n, hmem, hn⟩ := h
  exact ⟨n, hmem, Node.anyCallN_mono p r hpr n hn⟩

theorem module_any_mono (p r : PyExpr → Bool) (hpr : ∀ e, p e = true → r e = true)
    (m : List PyStmt) (h : module_any p m = true) : module_any r m = true :=
  qAny_mono p r hpr (m.map Node.stm) h

theorem validate_fresh_eq (allowed : List String) (parse : String → ParseResult)
    (code : String) (m : List PyStmt) (hparse : parse code = .ok m) :
    validate_fresh allowed parse code = validate_module allowed m := by
  simp [validate_fresh, hparse]

/-- Any offending call anywhere in the module makes the verdict invalid. -/
theorem validate_module_false_of_offender (allowed : List String)
    (m : List PyStmt) (h : module_any (offender allowed) m = true) :
    (validate_module allowed m).1 = false := by
  rw [validate_module_eq]
  cases hb : (validateNodes allowed (m.map Node.stm)).1 with
  | false => rfl
  | true =>
    have hq := (validateNodes_true_iff allowed (m.map Node.stm)).mp hb
    have h' : qAny (offender allowed) (m.map Node.stm) = true := h
    rw [hq] at h'
    exact absurd h' (by simp)

/-- A candidate whose fresh verdict is invalid is never executed in a cycle:
the entries of the execution log for that candidate text are unchanged. -/
theorem cycle_no_exec_of_invalid (allowed : List String)
    (parse : String → ParseResult) (registry : Registry) (maxPC : Nat)
    (st : PipeState) (resp : List Seg) (code : String)
    (hv : ValCacheOk allowed parse st) (hp : ParseCacheOk allowed parse st)
    (hinvalid : validBool allowed parse code = false) :
    (process_tool_cycle allowed parse registry maxPC st resp).2.tool_execution_log.filter
        (fun o => o.code == code) =
      st.tool_execution_log.filter (fun o => o.code == code) := by
  cases he : (extract_tool_calls resp).isEmpty with
  | true => simp [process_tool_cycle, he]
  | false =>
    obtain ⟨os, hflag, st', hrun, _, _, _, _, hlog, _, _⟩ :=
      runCandidates_spec allowed parse registry
        ((extract_tool_calls resp).take maxPC) st hv hp
    have hpt : process_tool_cycle allowed parse registry maxPC st resp =
        ((os, hflag), st') := by
      simp [process_tool_cycle, he, hrun]
    rw [hpt]
    simp only [hlog, List.filter_append]
    have : (os.filter (fun o => validBool allowed parse o.code)).filter
        (fun o => o.code == code) = [] := by
      rw [List.filter_eq_nil]
      intro o hmem hcode
      rw [List.mem_filter] at hmem
      have hco : o.code = code := by
        have := hcode
        simpa using this
      rw [hco] at hmem
      rw [hmem.2] at hinvalid
      exact absurd hinvalid (by simp)
    rw [this, List.append_nil]

/-- When the parse of a candidate fails, `execute_tool_call` returns a failed
outcome without ever consulting the registry: the result is identical for any
two registries. -/
theorem execute_fail_of_parse_error (allowed : List String)
    (parse : String → ParseResult) (st : PipeState) (code : String)
    (registry registry2 : Registry) (e : String)
    (hp : ParseCacheOk allowed parse st)
    (he : parse_tool_call_result allowed parse code = .error e) :
    (execute_tool_call allowed parse registry st code).1.success = false ∧
    (execute_tool_call allowed parse registry st code).1 =
      (execute_tool_call allowed parse registry2 st code).1 := by
  rcases h1 : readClock st with ⟨t0, st1⟩
  have e1 : st1.parse_cache = st.parse_cache := by
    rw [← readClock_parse_cache st, h1]
  have hp1 : ParseCacheOk allowed parse st1 := ParseCacheOk_of_eq hp e1
  have hlk : st1.parse_cache.lookup code = none := by
    cases hl : st1.parse_cache.lookup code with
    | none => rfl
    | some p =>
      have := hp1 code p (lookup_mem _ _ _ hl)
      rw [this] at he
      exact absurd he (by simp)
  have hpt : parse_tool_call allowed parse st1 code = (.error e, st1) := by
    simp [parse_tool_call, hlk, he]
  constructor
  · simp only [execute_tool_call, h1, hpt]
  · simp only [execute_tool_call, h1, hpt]

/-! ## Concrete instances for witnesses and counterexamples -/

/-- AST of `os.system('rm -rf /')` (spec scenario B). -/
def astOsSystemRm : List PyStmt :=
  [.exprStmt (.call (.attr (.name "os") "system") [.const (.str "rm -rf /")] [])]

/-- AST of `foo(os.system('x'))`: the outer call uses a simple name outside
the allow-list, the inner call an attribute. -/
def astFooOsSystem : List PyStmt :=
  [.exprStmt (.call (.name "foo")
    [.call (.attr (.name "os") "system") [.const (.str "x")] []] [])]

/-- AST of `os.system(foo())`: an attribute call whose argument invokes a
simple name outside the allow-list. -/
def astOsSystemFoo : List PyStmt :=
  [.exprStmt (.call (.attr (.name "os") "system") [.call (.name "foo") [] []] [])]

/-- AST of `get_weather(**cfg, x=y)`: keyword unpacking before a
name-reference keyword value. -/
def astGetWeatherUnpack : List PyStmt :=
  [.exprStmt (.call (.name "get_weather") []
    [.mk none (.name "cfg"), .mk (some "x") (.name "y")])]

/-- AST of `add_reminder(x, 'call mom')` (spec scenario D). -/
def astAddReminder : List PyStmt :=
  [.exprStmt (.call (.name "add_reminder")
    [.name "x", .const (.str "call mom")] [])]

/-- AST of `foo()`. -/
def astFooCall : List PyStmt := [.exprStmt (.call (.name "foo") [] [])]

/-- AST of `get_current_time()` (spec scenario A). -/
def astGetTime : List PyStmt := [.exprStmt (.call (.name "get_current_time") [] [])]

/-- AST of the bare literal `42`: valid Python with no call expression. -/
def astBareLiteral : List PyStmt := [.exprStmt (.const (.int 42))]

/-- A concrete stand-in for Python's parser covering the candidate snippets
used in the examples. -/
def demoParse : String → ParseResult := fun s =>
  if s = "os.system(\x27rm -rf /\x27)" then .ok astOsSystemRm
  else if s = "foo(os.system(\x27x\x27))" then .ok astFooOsSystem
  else if s = "os.system(foo())" then .ok astOsSystemFoo
  else if s = "get_weather(**cfg, x=y)" then .ok astGetWeatherUnpack
  else if s = "add_reminder(x, \x27call mom\x27)" then .ok astAddReminder
  else if s = "foo()" then .ok astFooCall
  else if s = "get_current_time()" then .ok astGetTime
  else if s = "42" then .ok astBareLiteral
  else .syntaxError "invalid syntax"

/-- A freshly initialised pipeline state: empty caches, empty log. -/
def emptyPipe : PipeState := ⟨[], [], [], []⟩

/-- A runtime scope in which only `get_current_time` is implemented
(returning the scenario-A string). -/
def demoRegistry : Registry := fun n =>
  if n = "get_current_time" then
    some (fun _ _ => .ok (.str "Current Time: 10:00 AM."))
  else none

/-- A runtime scope whose only tool raises. -/
def demoFailRegistry : Registry := fun n =>
  if n = "get_current_time" then some (fun _ _ => .error "boom")
  else none

theorem emptyPipe_valCacheOk (allowed : List String)
    (parse : String → ParseResult) : ValCacheOk allowed parse emptyPipe :=
  fun _ _ h => absurd h (by simp [emptyPipe])

theorem emptyPipe_parseCacheOk (allowed : List String)
    (parse : String → ParseResult) : ParseCacheOk allowed parse emptyPipe :=
  fun _ _ h => absurd h (by simp [emptyPipe])

/-! ## Claim theorems -/

/-- **C1 (amended).** Every candidate whose AST contains a call whose callee
is not a simple name gets an invalid verdict from `validate_tool_call`, and
`process_tool_cycle` never executes it (the execution-log entries for that
candidate are unchanged).  The reason is the only-direct-function-calls
message whenever the tree contains no call to a simple name outside the
allow-list; otherwise the breadth-first scan may report that other offence
(`not an allowed tool`) instead. -/
theorem validator_rejects_nonname_calls (allowed : List String)
    (parse : String → ParseResult) (registry : Registry) (maxPC : Nat)
    (st : PipeState) (resp : List Seg) (code : String) (m : List PyStmt)
    (hv : ValCacheOk allowed parse st) (hp : ParseCacheOk allowed parse st)
    (hparse : parse code = .ok m)
    (hbad : module_any isBadShape m = true) :
    (validate_tool_call allowed parse st code).1.1 = false ∧
    (module_any (isDisallowedName allowed) m = false →
      (validate_tool_call allowed parse st code).1 = (false, onlyDirectMsg)) ∧
    (process_tool_cycle allowed parse registry maxPC st resp).2.tool_execution_log.filter
        (fun o => o.code == code) =
      st.tool_execution_log.filter (fun o => o.code == code) := by
  obtain ⟨hva, _, _, _, _⟩ := validate_tool_call_spec allowed parse st code hv
  have hfreshEq := validate_fresh_eq allowed parse code m hparse
  have hinvalid : (validate_module allowed m).1 = false :=
    validate_module_false_of_offender allowed m
      (module_any_mono _ _ (offender_of_isBadShape allowed) m hbad)
  refine ⟨?_, ?_, ?_⟩
  · rw [hva, hfreshEq]
    exact hinvalid
  · intro hdis
    rw [hva, hfreshEq, validate_module_eq]
    exact validateNodes_onlyDirect allowed _ hdis hbad
  · exact cycle_no_exec_of_invalid allowed parse registry maxPC st resp code hv hp
      (by rw [validBool, hfreshEq]; exact hinvalid)

/-- Witness for C1 at spec scenario B: `os.system('rm -rf /')`. -/
theorem validator_rejects_nonname_calls_witness :
    (validate_tool_call allowed_tools demoParse emptyPipe
        "os.system(\x27rm -rf /\x27)").1.1 = false ∧
    (module_any (isDisallowedName allowed_tools) astOsSystemRm = false →
      (validate_tool_call allowed_tools demoParse emptyPipe
        "os.system(\x27rm -rf /\x27)").1 = (false, onlyDirectMsg)) ∧
    (process_tool_cycle allowed_tools demoParse demoRegistry 8 emptyPipe
        [Seg.block "os.system(\x27rm -rf /\x27)"]).2.tool_execution_log.filter
        (fun o => o.code == "os.system(\x27rm -rf /\x27)") =
      emptyPipe.tool_execution_log.filter
        (fun o => o.code == "os.system(\x27rm -rf /\x27)") :=
  validator_rejects_nonname_calls allowed_tools demoParse demoRegistry 8 emptyPipe
    [Seg.block "os.system(\x27rm -rf /\x27)"] "os.system(\x27rm -rf /\x27)"
    astOsSystemRm (emptyPipe_valCacheOk _ _) (emptyPipe_parseCacheOk _ _) rfl
    (by decide)

/-- **C1 counterexample.** `foo(os.system('x'))` has an attribute call in its
AST, yet the verdict's reason is the not-an-allowed-tool message for `foo`
(the breadth-first walk reaches the outer call first), not the
only-direct-function-calls message the claim requires. -/
theorem validator_nonname_reason_counterexample :
    demoParse "foo(os.system(\x27x\x27))" = .ok astFooOsSystem ∧
    module_any isBadShape astFooOsSystem = true ∧
    (validate_tool_call allowed_tools demoParse emptyPipe
        "foo(os.system(\x27x\x27))").1 = (false, notAllowedMsg "foo") ∧
    notAllowedMsg "foo" ≠ onlyDirectMsg :=
  ⟨rfl, by decide, rfl, by decide⟩

/-- **C2 (amended).** Every candidate invoking a simple name outside the
allow-list is rejected by both stages — `validate_tool_call` returns an
invalid verdict (with the not-an-allowed-tool reason for some disallowed
name, or the only-direct-calls reason when a non-simple-name call is scanned
first) and `_parse_tool_call` raises — and the candidate is never executed in
a cycle. -/
theorem disallowed_name_rejected_everywhere (allowed : List String)
    (parse : String → ParseResult) (registry : Registry) (maxPC : Nat)
    (st : PipeState) (resp : List Seg) (code : String) (m : List PyStmt)
    (hv : ValCacheOk allowed parse st) (hp : ParseCacheOk allowed parse st)
    (hparse : parse code = .ok m)
    (hd : module_any (isDisallowedName allowed) m = true) :
    (validate_tool_call allowed parse st code).1.1 = false ∧
    ((∃ id, id ∉ allowed ∧
        (validate_tool_call allowed parse st code).1 = (false, notAllowedMsg id)) ∨
      (validate_tool_call allowed parse st code).1 = (false, onlyDirectMsg)) ∧
    (∃ e, parse_tool_call_result allowed parse code = .error e) ∧
    (process_tool_cycle allowed parse registry maxPC st resp).2.tool_execution_log.filter
        (fun o => o.code == code) =
      st.tool_execution_log.filter (fun o => o.code == code) := by
  obtain ⟨hva, _, _, _, _⟩ := validate_tool_call_spec allowed parse st code hv
  have hfreshEq := validate_fresh_eq allowed parse code m hparse
  have hinvalid : (validate_module allowed m).1 = false :=
    validate_module_false_of_offender allowed m
      (module_any_mono _ _ (offender_of_isDisallowedName allowed) m hd)
  refine ⟨?_, ?_, ?_, ?_⟩
  · rw [hva, hfreshEq]
    exact hinvalid
  · rw [hva, hfreshEq, validate_module_eq]
    exact validateNodes_reasons allowed (m.map Node.stm)
      (by rw [← validate_module_eq]; exact hinvalid)
  · exact parse_result_error_of_disallowed allowed parse code m hparse hd
  · exact cycle_no_exec_of_invalid allowed parse registry maxPC st resp code hv hp
      (by rw [validBool, hfreshEq]; exact hinvalid)

/-- Witness for C2 at `foo()` (a name outside the registry). -/
theorem disallowed_name_rejected_everywhere_witness :
    (validate_tool_call allowed_tools demoParse emptyPipe "foo()").1.1 = false ∧
    ((∃ id, id ∉ allowed_tools ∧
        (validate_tool_call allowed_tools demoParse emptyPipe "foo()").1 =
          (false, notAllowedMsg id)) ∨
      (validate_tool_call allowed_tools demoParse emptyPipe "foo()").1 =
        (false, onlyDirectMsg)) ∧
    (∃ e, parse_tool_call_result allowed_tools demoParse "foo()" = .error e) ∧
    (process_tool_cycle allowed_tools demoParse demoRegistry 8 emptyPipe
        [Seg.block "foo()"]).2.tool_execution_log.filter
        (fun o => o.code == "foo()") =
      emptyPipe.tool_execution_log.filter (fun o => o.code == "foo()") :=
  disallowed_name_rejected_everywhere allowed_tools demoParse demoRegistry 8
    emptyPipe [Seg.block "foo()"] "foo()" astFooCall
    (emptyPipe_valCacheOk _ _) (emptyPipe_parseCacheOk _ _) rfl (by decide)

set_option maxRecDepth 20000 in
/-- **C2 counterexample.** `os.system(foo())` invokes the simple name `foo`,
absent from the allow-list, yet the verdict reason is the
only-direct-function-calls message — the words "not an allowed tool" do not
occur in it — because the breadth-first walk reaches the attribute call
first. -/
theorem disallowed_name_reason_counterexample :
    demoParse "os.system(foo())" = .ok astOsSystemFoo ∧
    module_any (isDisallowedName allowed_tools) astOsSystemFoo = true ∧
    (validate_tool_call allowed_tools demoParse emptyPipe "os.system(foo())").1 =
      (false, onlyDirectMsg) ∧
    ¬ List.IsInfix ("not an allowed tool".data) (onlyDirectMsg.data) :=
  ⟨rfl, by decide, rfl, by decide⟩

/-- **C3 (amended).** For a single validated call to an allowed name, a
positional name-reference argument — or, when no `**` unpacking occurs, a
keyword name-reference argument — makes `_parse_tool_call` fail with the
non-literal-argument error identifying the first offending argument, the
value is never coerced, and the call is never executed: `execute_tool_call`
returns a failed outcome identical under any registry.  (A `**` unpacking
keyword is reported with its own error before keyword values are examined;
see the counterexample.) -/
theorem parser_rejects_name_arguments (allowed : List String)
    (parse : String → ParseResult) (registry registry2 : Registry)
    (st : PipeState) (code fname : String) (args : List PyExpr)
    (kws : List PyKeyword)
    (hp : ParseCacheOk allowed parse st)
    (hparse : parse code = .ok [PyStmt.exprStmt (.call (.name fname) args kws)])
    (hf : fname ∈ allowed)
    (hcase : (args.any fun a => isNameRef a) = true ∨
      ((kws.all fun k => k.arg.isSome) = true ∧
        (kws.any fun k => isNameRef k.value) = true)) :
    ((∃ a, a ∈ args ∧ litEval a = none ∧
        parse_tool_call_result allowed parse code = .error (nonLitPosMsg a)) ∨
      (∃ k v, PyKeyword.mk (some k) v ∈ kws ∧ litEval v = none ∧
        parse_tool_call_result allowed parse code = .error (nonLitKwMsg k))) ∧
    (execute_tool_call allowed parse registry st code).1.success = false ∧
    (execute_tool_call allowed parse registry st code).1 =
      (execute_tool_call allowed parse registry2 st code).1 := by
  have hmain := parse_result_nonlit allowed parse code fname args kws hparse hf hcase
  have herr : ∃ e, parse_tool_call_result allowed parse code = .error e := by
    rcases hmain with ⟨a, _, _, he⟩ | ⟨k, v, _, _, he⟩ <;> exact ⟨_, he⟩
  obtain ⟨e, he⟩ := herr
  obtain ⟨h1, h2⟩ :=
    execute_fail_of_parse_error allowed parse st code registry registry2 e hp he
  exact ⟨hmain, h1, h2⟩

/-- Witness for C3 at spec scenario D: `add_reminder(x, 'call mom')`. -/
theorem parser_rejects_name_arguments_witness :
    ((∃ a, a ∈ [PyExpr.name "x", PyExpr.const (.str "call mom")] ∧
        litEval a = none ∧
        parse_tool_call_result allowed_tools demoParse
          "add_reminder(x, \x27call mom\x27)" = .error (nonLitPosMsg a)) ∨
      (∃ k v, PyKeyword.mk (some k) v ∈ ([] : List PyKeyword) ∧ litEval v = none ∧
        parse_tool_call_result allowed_tools demoParse
          "add_reminder(x, \x27call mom\x27)" = .error (nonLitKwMsg k))) ∧
    (execute_tool_call allowed_tools demoParse demoRegistry emptyPipe
        "add_reminder(x, \x27call mom\x27)").1.success = false ∧
    (execute_tool_call allowed_tools demoParse demoRegistry emptyPipe
        "add_reminder(x, \x27call mom\x27)").1 =
      (execute_tool_call allowed_tools demoParse demoFailRegistry emptyPipe
        "add_reminder(x, \x27call mom\x27)").1 :=
  parser_rejects_name_arguments allowed_tools demoParse demoRegistry
    demoFailRegistry emptyPipe "add_reminder(x, \x27call mom\x27)" "add_reminder"
    [PyExpr.name "x", PyExpr.const (.str "call mom")] []
    (emptyPipe_parseCacheOk _ _) rfl (by decide) (Or.inl (by decide))

/-- **C3 counterexample.** `get_weather(**cfg, x=y)` has the keyword argument
`x=y` whose value is a name reference, yet `_parse_tool_call` fails with the
keyword-unpacking error, which is not a non-literal-argument error (it does
not begin with "Unsupported non-literal"). -/
theorem parser_unpack_error_counterexample :
    demoParse "get_weather(**cfg, x=y)" = .ok astGetWeatherUnpack ∧
    ([PyKeyword.mk none (.name "cfg"), PyKeyword.mk (some "x") (.name "y")].any
      fun k => isNameRef k.value) = true ∧
    parse_tool_call_result allowed_tools demoParse "get_weather(**cfg, x=y)" =
      .error unpackMsg ∧
    ("Unsupported non-literal".data.isPrefixOf unpackMsg.data) = false :=
  ⟨rfl, by decide, rfl, by decide⟩

/-- **C4.** When the extracted candidates fit into the per-cycle cap,
`process_tool_cycle` returns one outcome per candidate, in the original
extraction order; validation failures are tagged as failures with the
validation-failure record, validation-passing candidates are tagged with
their actual execution result, and `has_errors` holds exactly when some
candidate fails validation or some validation-passing candidate's execution
fails. -/
theorem cycle_outcomes_complete (allowed : List String)
    (parse : String → ParseResult) (registry : Registry) (maxPC : Nat)
    (st : PipeState) (resp : List Seg)
    (hv : ValCacheOk allowed parse st) (hp : ParseCacheOk allowed parse st)
    (hlen : (extract_tool_calls resp).length ≤ maxPC) :
    ∃ os he st',
      process_tool_cycle allowed parse registry maxPC st resp = ((os, he), st') ∧
      os.map (fun o => o.code) = extract_tool_calls resp ∧
      he = ((extract_tool_calls resp).any fun c =>
        !validBool allowed parse c || !execSuccessSpec allowed parse registry c) ∧
      (∀ o ∈ os, validBool allowed parse o.code = false →
        o = validationFailureOutcome o.code (validate_fresh allowed parse o.code).2) ∧
      (∀ o ∈ os, validBool allowed parse o.code = true →
        o.success = execSuccessSpec allowed parse registry o.code) := by
  cases he0 : (extract_tool_calls resp).isEmpty with
  | true =>
    have hnil : extract_tool_calls resp = [] := by
      cases hx : extract_tool_calls resp with
      | nil => rfl
      | cons a b => rw [hx] at he0; simp at he0
    exact ⟨[], false, st, by simp [process_tool_cycle, he0], by simp [hnil],
      by simp [hnil], by simp, by simp⟩
  | false =>
    have htake : (extract_tool_calls resp).take maxPC = extract_tool_calls resp :=
      List.take_all_of_le hlen
    obtain ⟨os, hfl, st', hrun, hmap, hhe, hinv, hvalid, _, _, _⟩ :=
      runCandidates_spec allowed parse registry
        ((extract_tool_calls resp).take maxPC) st hv hp
    rw [htake] at hrun hmap hhe
    exact ⟨os, hfl, st', by simp [process_tool_cycle, he0, htake, hrun],
      hmap, hhe, hinv, hvalid⟩

/-- Witness for C4: a cycle with one valid call (`get_current_time()`,
scenario A) and one invalid call (`foo()`). -/
theorem cycle_outcomes_complete_witness :
    ∃ os he st',
      process_tool_cycle allowed_tools demoParse demoRegistry 8 emptyPipe
          [Seg.block "get_current_time()", Seg.block "foo()"] = ((os, he), st') ∧
      os.map (fun o => o.code) = extract_tool_calls
        [Seg.block "get_current_time()", Seg.block "foo()"] ∧
      he = ((extract_tool_calls
          [Seg.block "get_current_time()", Seg.block "foo()"]).any fun c =>
        !validBool allowed_tools demoParse c ||
          !execSuccessSpec allowed_tools demoParse demoRegistry c) ∧
      (∀ o ∈ os, validBool allowed_tools demoParse o.code = false →
        o = validationFailureOutcome o.code
          (validate_fresh allowed_tools demoParse o.code).2) ∧
      (∀ o ∈ os, validBool allowed_tools demoParse o.code = true →
        o.success = execSuccessSpec allowed_tools demoParse demoRegistry o.code) :=
  cycle_outcomes_complete allowed_tools demoParse demoRegistry 8 emptyPipe
    [Seg.block "get_current_time()", Seg.block "foo()"]
    (emptyPipe_valCacheOk _ _) (emptyPipe_parseCacheOk _ _) (by decide)

/-- **C5 (amended).** Every processed candidate yields exactly one outcome
record in the cycle results, and the log grows append-only: `execute_tool_call`
appends its outcome, and a cycle appends exactly the outcomes of the
candidates that passed validation, in order — validation-failure records are
returned in the results but never enter `tool_execution_log`. -/
theorem execution_log_append_only (allowed : List String)
    (parse : String → ParseResult) (registry : Registry) (maxPC : Nat)
    (st : PipeState) (resp : List Seg) (code : String)
    (hv : ValCacheOk allowed parse st) (hp : ParseCacheOk allowed parse st) :
    (∃ os he st',
      process_tool_cycle allowed parse registry maxPC st resp = ((os, he), st') ∧
      os.map (fun o => o.code) = (extract_tool_calls resp).take maxPC ∧
      st'.tool_execution_log = st.tool_execution_log ++
        os.filter (fun o => validBool allowed parse o.code)) ∧
    (execute_tool_call allowed parse registry st code).2.tool_execution_log =
      st.tool_execution_log ++ [(execute_tool_call allowed parse registry st code).1] := by
  constructor
  · cases he0 : (extract_tool_calls resp).isEmpty with
    | true =>
      have hnil : extract_tool_calls resp = [] := by
        cases hx : extract_tool_calls resp with
        | nil => rfl
        | cons a b => rw [hx] at he0; simp at he0
      exact ⟨[], false, st, by simp [process_tool_cycle, he0], by simp [hnil],
        by simp⟩
    | false =>
      obtain ⟨os, hfl, st', hrun, hmap, _, _, _, hlog, _, _⟩ :=
        runCandidates_spec allowed parse registry
          ((extract_tool_calls resp).take maxPC) st hv hp
      exact ⟨os, hfl, st', by simp [process_tool_cycle, he0, hrun], hmap, hlog⟩
  · exact (execute_tool_call_spec allowed parse registry st code hp).2.2.1

/-- Witness for C5: a cycle over the single valid call `get_current_time()`. -/
theorem execution_log_append_only_witness :
    (∃ os he st',
      process_tool_cycle allowed_tools demoParse demoRegistry 8 emptyPipe
          [Seg.block "get_current_time()"] = ((os, he), st') ∧
      os.map (fun o => o.code) =
        (extract_tool_calls [Seg.block "get_current_time()"]).take 8 ∧
      st'.tool_execution_log = emptyPipe.tool_execution_log ++
        os.filter (fun o => validBool allowed_tools demoParse o.code)) ∧
    (execute_tool_call allowed_tools demoParse demoRegistry emptyPipe
        "get_current_time()").2.tool_execution_log =
      emptyPipe.tool_execution_log ++
        [(execute_tool_call allowed_tools demoParse demoRegistry emptyPipe
          "get_current_time()").1] :=
  execution_log_append_only allowed_tools demoParse demoRegistry 8 emptyPipe
    [Seg.block "get_current_time()"] "get_current_time()"
    (emptyPipe_valCacheOk _ _) (emptyPipe_parseCacheOk _ _)

/-- **C5 counterexample.** A cycle over the single candidate `foo()` (not an
allowed tool) produces exactly one outcome record, yet `tool_execution_log`
stays empty: the validation-failure record is never appended to the log,
contrary to the claim that every candidate's record is. -/
theorem validation_failure_not_logged_counterexample :
    ((process_tool_cycle allowed_tools demoParse demoRegistry 8 emptyPipe
        [Seg.block "foo()"]).1.1.length = 1) ∧
    (process_tool_cycle allowed_tools demoParse demoRegistry 8 emptyPipe
        [Seg.block "foo()"]).2.tool_execution_log = [] :=
  ⟨rfl, rfl⟩

/-- **C6 (amended).** When the tool-cycle budget is exhausted while the model
keeps requesting tools, the driver makes exactly one forced final-answer
model call (`maxC + 1` model calls in total), and when that final answer is
non-empty and still contains tool-call syntax it is returned with the fenced
blocks stripped out textually and the canned disclaimer prefixed — whose
actual text is "I\x27ve completed the available tool operations. ", not
"I\x27ve completed the available operations" as the claim quotes. -/
theorem forced_final_after_budget (allowed : List String)
    (parse : String → ParseResult) (registry : Registry) (maxC maxPC : Nat)
    (sysPrompt : String) (st : DriverState) (query : String)
    (rs : List (List Seg)) (f : List Seg) (tail : List (List Seg))
    (hq : query.isEmpty = false) (hm : 1 ≤ maxPC) (hc : 1 ≤ maxC)
    (horacle : st.oracle = rs ++ f :: tail) (hlen : rs.length = maxC)
    (hrs : ∀ r ∈ rs, (renderResponse r).isEmpty = false ∧
      extract_tool_calls r ≠ [])
    (hf1 : (renderResponse f).isEmpty = false)
    (hf2 : extract_tool_calls f ≠ []) :
    (handle_query_with_iterative_tools allowed parse registry maxC maxPC
        sysPrompt st query).1 = disclaimerPrefix ++ strip_tool_blocks f ∧
    (handle_query_with_iterative_tools allowed parse registry maxC maxPC
        sysPrompt st query).2.calls = st.calls + maxC + 1 := by
  set st0 : DriverState :=
    { st with conv := ensure_system_turn sysPrompt st.conv ++ [⟨"user", query⟩] }
    with hst0
  obtain ⟨st', ha, hb, hc'⟩ := runCycles_budget allowed parse registry maxPC hm
    maxC st0 rs f tail horacle hlen hc hrs
  have hf2e : (extract_tool_calls f).isEmpty = false := by
    cases hx : extract_tool_calls f with
    | nil => exact absurd hx hf2
    | cons a b => rfl
  have hres : runCycles allowed parse registry maxPC maxC st0 =
      (disclaimerPrefix ++ strip_tool_blocks f, st') := by
    rw [ha, hf1, hf2e]
    simp
  constructor
  · simp only [handle_query_with_iterative_tools, hq, Bool.false_eq_true,
      if_false, ← hst0, hres]
    simp [disclaimer_append_isEmpty]
  · simp only [handle_query_with_iterative_tools, hq, Bool.false_eq_true,
      if_false, ← hst0, hres]
    have h0ca : st0.calls = st.calls := rfl
    rw [hb, h0ca]
    omega

/-- Witness for C6: one cycle of tool requests with `max_tool_cycles = 1`,
then a forced-final response that still contains a fenced block. -/
theorem forced_final_after_budget_witness :
    (handle_query_with_iterative_tools allowed_tools demoParse demoRegistry 1 8
        "prompt" ⟨[], emptyPipe, [[Seg.block "get_current_time()"],
          [Seg.block "get_current_time()", Seg.text "All done"]], 0⟩ "hi").1 =
      disclaimerPrefix ++ strip_tool_blocks
        [Seg.block "get_current_time()", Seg.text "All done"] ∧
    (handle_query_with_iterative_tools allowed_tools demoParse demoRegistry 1 8
        "prompt" ⟨[], emptyPipe, [[Seg.block "get_current_time()"],
          [Seg.block "get_current_time()", Seg.text "All done"]], 0⟩ "hi").2.calls =
      0 + 1 + 1 :=
  forced_final_after_budget allowed_tools demoParse demoRegistry 1 8 "prompt"
    ⟨[], emptyPipe, [[Seg.block "get_current_time()"],
      [Seg.block "get_current_time()", Seg.text "All done"]], 0⟩ "hi"
    [[Seg.block "get_current_time()"]]
    [Seg.block "get_current_time()", Seg.text "All done"] []
    rfl (by omega) (by omega) rfl rfl (by decide) (by decide) (by decide)

set_option maxRecDepth 20000 in
/-- **C6 counterexample.** On a concrete budget-exhausted run the final
answer is prefixed with "I\x27ve completed the available tool operations. ";
it does not start with the claim's quoted phrase "I\x27ve completed the
available operations". -/
theorem forced_final_disclaimer_counterexample :
    (handle_query_with_iterative_tools allowed_tools demoParse demoRegistry 1 8
        "prompt" ⟨[], emptyPipe, [[Seg.block "get_current_time()"],
          [Seg.block "get_current_time()", Seg.text "All done"]], 0⟩ "hi").1 =
      "I\x27ve completed the available tool operations. All done" ∧
    ("I\x27ve completed the available operations".data.isPrefixOf
      "I\x27ve completed the available tool operations. All done".data) = false :=
  ⟨rfl, by decide⟩

/-- **C7.** `execute_tool_call` never raises: it always returns an outcome
for the requested candidate and appends it to the log; a tool that raises,
or a tool missing from the runtime scope, yields a `success = false` outcome
whose error field wraps the exception text; and the recorded duration is the
difference of the two clock readings taken around the call. -/
theorem executor_never_raises (allowed : List String)
    (parse : String → ParseResult) (registry : Registry) (st : PipeState)
    (code : String) (t0 t1 : Nat) (rest : List Nat)
    (hp : ParseCacheOk allowed parse st)
    (hclock : st.clock = t0 :: t1 :: rest) :
    (execute_tool_call allowed parse registry st code).1.code = code ∧
    (execute_tool_call allowed parse registry st code).2.tool_execution_log =
      st.tool_execution_log ++ [(execute_tool_call allowed parse registry st code).1] ∧
    (execute_tool_call allowed parse registry st code).1.execution_time = t1 - t0 ∧
    (∀ fname as ks fn e,
      parse_tool_call_result allowed parse code = .ok (fname, as, ks) →
      registry fname = some fn → fn as ks = .error e →
      (execute_tool_call allowed parse registry st code).1 =
        ⟨false, none, code, t1 - t0, some (execErrorMsg code e)⟩) ∧
    (∀ fname as ks,
      parse_tool_call_result allowed parse code = .ok (fname, as, ks) →
      registry fname = none →
      (execute_tool_call allowed parse registry st code).1 =
        ⟨false, none, code, t1 - t0,
          some (execErrorMsg code (notImplementedMsg fname))⟩) := by
  have h1 : readClock st = (t0, { st with clock := t1 :: rest }) := by
    simp [readClock, hclock]
  have hp1 : ParseCacheOk allowed parse { st with clock := t1 :: rest } :=
    ParseCacheOk_of_eq hp rfl
  obtain ⟨hpa, hpb, hpc, hpd, hpe⟩ :=
    parse_tool_call_spec allowed parse { st with clock := t1 :: rest } code hp1
  rcases h2 : parse_tool_call allowed parse { st with clock := t1 :: rest } code
    with ⟨pr, st2⟩
  rw [h2] at hpa hpb hpc hpd hpe
  simp only at hpa hpb hpc hpd hpe
  have hclk2 : st2.clock = t1 :: rest := hpd
  have h3 : readClock st2 = (t1, { st2 with clock := rest }) := by
    simp [readClock, hclk2]
  refine ⟨?_, ?_, ?_, ?_, ?_⟩
  · cases pr with
    | error e => simp only [execute_tool_call, h1, h2, h3]
    | ok parsed =>
      rcases parsed with ⟨fname, as, ks⟩
      cases hreg : registry fname with
      | none => simp only [execute_tool_call, h1, h2, h3, hreg]
      | some fn =>
        cases hfn : fn as ks with
        | ok v => simp only [execute_tool_call, h1, h2, h3, hreg, hfn]
        | error e => simp only [execute_tool_call, h1, h2, h3, hreg, hfn]
  · cases pr with
    | error e =>
      simp only [execute_tool_call, h1, h2, h3]
      simp [hpc]
    | ok parsed =>
      rcases parsed with ⟨fname, as, ks⟩
      cases hreg : registry fname with
      | none =>
        simp only [execute_tool_call, h1, h2, h3, hreg]
        simp [hpc]
      | some fn =>
        cases hfn : fn as ks with
        | ok v =>
          simp only [execute_tool_call, h1, h2, h3, hreg, hfn]
          simp [hpc]
        | error e =>
          simp only [execute_tool_call, h1, h2, h3, hreg, hfn]
          simp [hpc]
  · cases pr with
    | error e => simp only [execute_tool_call, h1, h2, h3]
    | ok parsed =>
      rcases parsed with ⟨fname, as, ks⟩
      cases hreg : registry fname with
      | none => simp only [execute_tool_call, h1, h2, h3, hreg]
      | some fn =>
        cases hfn : fn as ks with
        | ok v => simp only [execute_tool_call, h1, h2, h3, hreg, hfn]
        | error e => simp only [execute_tool_call, h1, h2, h3, hreg, hfn]
  · intro fname as ks fn e hpr hreg hfn
    cases pr with
    | error e0 =>
      rw [hpr] at hpa
      exact absurd hpa (by simp)
    | ok parsed =>
      rcases parsed with ⟨f0, a0, k0⟩
      rw [hpr] at hpa
      have hfk : f0 = fname ∧ a0 = as ∧ k0 = ks := by simpa using hpa
      obtain ⟨rfl, rfl, rfl⟩ := hfk
      simp only [execute_tool_call, h1, h2, h3, hreg, hfn]
  · intro fname as ks hpr hreg
    cases pr with
    | error e0 =>
      rw [hpr] at hpa
      exact absurd hpa (by simp)
    | ok parsed =>
      rcases parsed with ⟨f0, a0, k0⟩
      rw [hpr] at hpa
      have hfk : f0 = fname ∧ a0 = as ∧ k0 = ks := by simpa using hpa
      obtain ⟨rfl, rfl, rfl⟩ := hfk
      simp only [execute_tool_call, h1, h2, h3, hreg]

/-- Witness for C7: a tool that raises "boom", with clock readings 5 and 9
around the call (recorded duration 4). -/
theorem executor_never_raises_witness :
    (execute_tool_call allowed_tools demoParse demoFailRegistry
        ⟨[], [], [], [5, 9]⟩ "get_current_time()").1 =
      ⟨false, none, "get_current_time()", 4,
        some (execErrorMsg "get_current_time()" "boom")⟩ := by
  have h := executor_never_raises allowed_tools demoParse demoFailRegistry
    ⟨[], [], [], [5, 9]⟩ "get_current_time()" 5 9 []
    (fun _ _ hc => absurd hc (by simp)) rfl
  exact h.2.2.2.1 "get_current_time" [] [] (fun _ _ => .error "boom") "boom"
    rfl rfl rfl

/-- **C8.** Re-validating byte-identical candidate text returns the identical
verdict pair from the per-instance cache, leaving the state untouched, even
when the allow-list differs between the two calls: every return path of the
first call stores its verdict, and a cache hit consults nothing else. -/
theorem validation_cache_hit_identical (allowed allowed2 : List String)
    (parse : String → ParseResult) (st : PipeState) (code : String) :
    validate_tool_call allowed2 parse
        (validate_tool_call allowed parse st code).2 code =
      validate_tool_call allowed parse st code := by
  cases hm : st.validation_cache.lookup code with
  | some r => simp [validate_tool_call, hm]
  | none => simp [validate_tool_call, hm, List.lookup]

/-- **C9.** Whenever the conversation exceeds the fixed ceiling of 20 turns,
the driver's truncation keeps exactly 20 turns: the first (system) turn plus
the 19 most recent turns.  (`runCycles` writes this truncation back into the
single threaded conversation state, matching the source's in-place
`GLOBAL_CONVERSATION_HISTORY[:] = new_hist` update.) -/
theorem conversation_truncation (conv : List Turn) (h : 20 < conv.length) :
    (truncate_conversation conv).length = 20 ∧
    (truncate_conversation conv).take 1 = conv.take 1 ∧
    (truncate_conversation conv).drop 1 = conv.drop (conv.length - 19) := by
  have hlen1 : (conv.take 1).length = 1 := by
    rw [List.length_take]
    omega
  unfold truncate_conversation
  rw [if_pos h]
  refine ⟨?_, ?_, ?_⟩
  · rw [List.length_append, List.length_take, List.length_drop]
    omega
  · rw [List.take_append_of_le_length (by omega)]
    simp [List.take_take]
  · rw [List.drop_left' hlen1]

/-- Witness conversation for C9: a system turn plus 20 user turns. -/
def conv21 : List Turn := ⟨"system", "sys"⟩ :: List.replicate 20 ⟨"user", "u"⟩

/-- Witness for C9 at a 21-turn conversation. -/
theorem conversation_truncation_witness :
    20 < conv21.length ∧
    (truncate_conversation conv21).length = 20 ∧
    (truncate_conversation conv21).take 1 = conv21.take 1 ∧
    (truncate_conversation conv21).drop 1 = conv21.drop (conv21.length - 19) := by
  have h : 20 < conv21.length := by decide
  exact ⟨h, (conversation_truncation conv21 h).1,
    (conversation_truncation conv21 h).2.1, (conversation_truncation conv21 h).2.2⟩

/-- **C10.** A candidate that parses as valid Python but contains no call
expression passes `validate_tool_call` with the verdict `(true, "Valid")`;
only `_parse_tool_call` rejects it, with the not-exactly-one-expression or
the must-be-a-function-call error. -/
theorem noncall_code_passes_validation (allowed : List String)
    (parse : String → ParseResult) (st : PipeState) (code : String)
    (m : List PyStmt)
    (hv : ValCacheOk allowed parse st)
    (hparse : parse code = .ok m)
    (hnc : module_any isAnyCall m = false) :
    (validate_tool_call allowed parse st code).1 = (true, "Valid") ∧
    (parse_tool_call_result allowed parse code = .error singleExprMsg ∨
      parse_tool_call_result allowed parse code = .error mustBeCallMsg) := by
  obtain ⟨hva, _, _, _, _⟩ := validate_tool_call_spec allowed parse st code hv
  have hfreshEq := validate_fresh_eq allowed parse code m hparse
  have hq : qAny (offender allowed) (m.map Node.stm) = false := by
    cases hx : qAny (offender allowed) (m.map Node.stm) with
    | false => rfl
    | true =>
      have hall := qAny_mono _ _ (isAnyCall_of_offender allowed) _ hx
      have h' : qAny isAnyCall (m.map Node.stm) = false := hnc
      rw [hall] at h'
      exact absurd h' (by simp)
  refine ⟨?_, parse_result_no_call allowed parse code m hparse hnc⟩
  rw [hva, hfreshEq, validate_module_eq]
  exact validateNodes_eq_of_true allowed _ ((validateNodes_true_iff allowed _).mpr hq)

/-- Witness for C10 at the bare literal `42`. -/
theorem noncall_code_passes_validation_witness :
    (validate_tool_call allowed_tools demoParse emptyPipe "42").1 =
      (true, "Valid") ∧
    (parse_tool_call_result allowed_tools demoParse "42" = .error singleExprMsg ∨
      parse_tool_call_result allowed_tools demoParse "42" = .error mustBeCallMsg) :=
  noncall_code_passes_validation allowed_tools demoParse emptyPipe "42"
    astBareLiteral (emptyPipe_valCacheOk _ _) rfl (by decide)

end Jarvis
